import Mathlib

set_option maxRecDepth 8000

/-!
Verification of the text-replacement engine of the Text-Replacement browser
extension.  The engine lives in `content.js`; an earlier revision of the same
file (with a linear-scan match resolver and no per-node timeout) is also part
of the repository.  The definitions below are a shallow embedding of that
code: JavaScript strings become `List Char`, the two compiled regexes become
ordered alternation lists of literal fragments with word-boundary markers, a
JavaScript object used as a map becomes an insertion-ordered association list,
and `String.prototype.replace` with a global regex becomes an explicit
left-to-right scan.  The wall clock consulted by the timeout check is
abstracted as a boolean oracle indexed by the number of match-callback
invocations performed so far on the current node.
-/

/-- Word characters in the sense of the JavaScript regex class `\w` used by
`buildRegex`: ASCII letters, ASCII digits and underscore. -/
def isWordChar (c : Char) : Bool :=
  (65 ≤ c.toNat && c.toNat ≤ 90) || (97 ≤ c.toNat && c.toNat ≤ 122) ||
    (48 ≤ c.toNat && c.toNat ≤ 57) || c.toNat == 95

/-- Case folding used to model both the regex ignore-case flag and
`String.prototype.toLowerCase` (ASCII: all texts and keys in the claims are
ASCII, where the two coincide). -/
def charFold (ic : Bool) (c : Char) : Char := if ic then c.toLower else c

/-- The characters that `escapeRegExp` in `content.js` prefixes with a
backslash: `.` `*` `+` `?` `^` `$` braces, parentheses, `|`, brackets and
backslash. -/
def regexSpecials : List Char :=
  ['.', '*', '+', '?', '^', '$', '\x7b', '\x7d', '(', ')', '|', '[', ']', '\\']

/-- Model of `escapeRegExp`: every regex metacharacter is escaped, so the key
is matched literally.  The escaped text only matters for its length (the sort
key of `buildRegex`); the matching semantics below works on the raw key, which
is what the escaped pattern denotes. -/
def escapeRegExp (s : String) : String :=
  String.mk (s.data.flatMap (fun c => if c ∈ regexSpecials then ['\\', c] else [c]))

/-- One alternative of a combined regex built by `buildRegex`: the literal rule
key plus the two word-boundary assertions, present exactly when the key starts
(respectively ends) with a word character. -/
structure Frag where
  word : String
  bdL : Bool
  bdR : Bool
deriving DecidableEq, Repr

/-- Builds the fragment for one key, as the `words.map` body of `buildRegex`
does: `/^\w/.test(word)` and `/\w$/.test(word)` decide the boundary markers. -/
def mkFrag (w : String) : Frag :=
  { word := w
    bdL := match w.data with
           | [] => false
           | c :: _ => isWordChar c
    bdR := match w.data.getLast? with
           | none => false
           | some c => isWordChar c }

/-- Length of the JavaScript pattern string of a fragment
(`prefix + escaped + suffix`, each `\b` marker being two characters); this is
the sort key used by `buildRegex`. -/
def patternLen (f : Frag) : Nat :=
  (if f.bdL then 2 else 0) + (escapeRegExp f.word).length + (if f.bdR then 2 else 0)

/-- Stable insertion of a fragment into a length-descending list: the new
element precedes exactly the strictly shorter patterns.  Inserting elements
from the right, this reproduces the stable descending sort
`patterns.sort((a, b) => b.length - a.length)` of `buildRegex`. -/
def insertFragDesc (x : Frag) : List Frag → List Frag
  | [] => [x]
  | y :: ys => if patternLen y ≤ patternLen x then x :: y :: ys else y :: insertFragDesc x ys

/-- Stable sort of the fragments by descending pattern length. -/
def sortFragsDesc : List Frag → List Frag
  | [] => []
  | x :: xs => insertFragDesc x (sortFragsDesc xs)

/-- A compiled combined regex: the ordered alternation and the ignore-case
flag (`'g'` versus `'gi'`). -/
structure CompiledRegex where
  frags : List Frag
  ignoreCase : Bool
deriving DecidableEq, Repr

/-- Model of `buildRegex(words, caseSensitive)`: `null` on an empty word list,
otherwise one alternation of the per-word fragments sorted by descending
pattern length, case-insensitive exactly when `caseSensitive` is false. -/
def buildRegex (words : List String) (caseSensitive : Bool) : Option CompiledRegex :=
  if words = [] then none
  else some { frags := sortFragsDesc (words.map mkFrag), ignoreCase := !caseSensitive }

/-- Stored data of one replacement rule (the value of a `wordMap` entry).
`enabled` is optional because older stored rules lack the field; the code
tests `data.enabled !== false`. -/
structure RuleData where
  replacement : String
  caseSensitive : Bool
  enabled : Option Bool
deriving DecidableEq, Repr

/-- A JavaScript object used as a map, modelled as an association list in
insertion order.  (JavaScript would enumerate integer-like keys first; rule
keys are user-entered words, assumed not integer-like.) -/
abbrev WordMap := List (String × RuleData)

/-- Property read `m[k]` (own properties only; the prototype chain is not
modelled). -/
def objGet (m : WordMap) (k : String) : Option RuleData :=
  (m.find? (fun p => p.1 == k)).map (fun p => p.2)

/-- Property write `m[k] = v`: updates the value in place if the key exists,
otherwise appends the new entry.  (In JavaScript an assignment under the key
"__proto__" would be intercepted by the inherited accessor and never become
an own entry; such a key cannot reach storage through the extension's own
write paths, so the own-property model suffices for the write side.) -/
def objSet (m : WordMap) (k : String) (v : RuleData) : WordMap :=
  if m.any (fun p => p.1 == k) then m.map (fun p => if p.1 == k then (k, v) else p)
  else m ++ [(k, v)]

/-- The enablement test `data.enabled !== false` of `updateRegexes`. -/
def ruleEnabled (d : RuleData) : Bool := d.enabled != some false

/-- Model of `word.toLowerCase()` (ASCII). -/
def lowerStr (s : String) : String := String.mk (s.data.map Char.toLower)

/-- The compiled matcher state held in the globals of `content.js`. -/
structure CompiledState where
  wordMapCache : WordMap
  wordMapCacheLower : WordMap
  sensitiveRegex : Option CompiledRegex
  insensitiveRegex : Option CompiledRegex
deriving DecidableEq, Repr

/-- Accumulator of the `for...of Object.entries(wordMap)` loop of
`updateRegexes`. -/
structure UpdateAcc where
  sensitiveWords : List String
  insensitiveWords : List String
  activeMap : WordMap
  activeLowerMap : WordMap
deriving Repr

/-- One iteration of the `updateRegexes` loop body. -/
def updateStep (acc : UpdateAcc) (p : String × RuleData) : UpdateAcc :=
  if ruleEnabled p.2 then
    { sensitiveWords :=
        if p.2.caseSensitive then acc.sensitiveWords ++ [p.1] else acc.sensitiveWords
      insensitiveWords :=
        if p.2.caseSensitive then acc.insensitiveWords else acc.insensitiveWords ++ [p.1]
      activeMap := objSet acc.activeMap p.1 p.2
      activeLowerMap :=
        if p.2.caseSensitive then acc.activeLowerMap
        else objSet acc.activeLowerMap (lowerStr p.1) p.2 }
  else acc

/-- Model of `updateRegexes` in the current `content.js`: filters to enabled
rules, splits them into the two buckets, builds the exact and lowercase lookup
maps and compiles the two regexes. -/
def updateRegexes (wordMap : WordMap) : CompiledState :=
  let acc := wordMap.foldl updateStep ⟨[], [], [], []⟩
  { wordMapCache := acc.activeMap
    wordMapCacheLower := acc.activeLowerMap
    sensitiveRegex := buildRegex acc.sensitiveWords true
    insensitiveRegex := buildRegex acc.insensitiveWords false }

/-- The compiled matcher state of the earlier revision of `content.js`
(no lowercase lookup map). -/
structure CompiledStateOld where
  wordMapCache : WordMap
  sensitiveRegex : Option CompiledRegex
  insensitiveRegex : Option CompiledRegex
deriving Repr

/-- Accumulator of the loop of the earlier `updateRegexes`. -/
structure UpdateAccOld where
  sensitiveWords : List String
  insensitiveWords : List String
  activeMap : WordMap
deriving Repr

/-- One iteration of the earlier `updateRegexes` loop body. -/
def updateStepOld (acc : UpdateAccOld) (p : String × RuleData) : UpdateAccOld :=
  if ruleEnabled p.2 then
    { sensitiveWords :=
        if p.2.caseSensitive then acc.sensitiveWords ++ [p.1] else acc.sensitiveWords
      insensitiveWords :=
        if p.2.caseSensitive then acc.insensitiveWords else acc.insensitiveWords ++ [p.1]
      activeMap := objSet acc.activeMap p.1 p.2 }
  else acc

/-- Model of the earlier revision's `updateRegexes`. -/
def updateRegexesOld (wordMap : WordMap) : CompiledStateOld :=
  let acc := wordMap.foldl updateStepOld ⟨[], [], []⟩
  { wordMapCache := acc.activeMap
    sensitiveRegex := buildRegex acc.sensitiveWords true
    insensitiveRegex := buildRegex acc.insensitiveWords false }

/-- Does the literal key `w` (case-folded when `ic`) match the first
`w.length` characters of `s`? -/
def litMatches (ic : Bool) : List Char → List Char → Bool
  | [], _ => true
  | _ :: _, [] => false
  | c :: w, d :: s => charFold ic c == charFold ic d && litMatches ic w s

/-- Is the (possibly absent) character a word character? -/
def isWordOpt : Option Char → Bool
  | none => false
  | some c => isWordChar c

/-- The regex `\b` assertion between a left and a right character; a position
outside the subject counts as non-word. -/
def boundaryAt (l r : Option Char) : Bool := isWordOpt l != isWordOpt r

/-- Last character of `m`, or `prev` when `m` is empty: the character to the
left of the position right after the matched text. -/
def lastCharOr (m : List Char) (prev : Option Char) : Option Char :=
  match m.getLast? with
  | some c => some c
  | none => prev

/-- Attempt to match one fragment at the current position.  `prev` is the
subject character immediately before the position (`none` at the start).
Returns the number of subject characters matched. -/
def tryFrag (ic : Bool) (f : Frag) (prev : Option Char) (s : List Char) : Option Nat :=
  let w := f.word.data
  if f.bdL && !boundaryAt prev s.head? then none
  else if litMatches ic w s then
    if f.bdR && !boundaryAt (lastCharOr (s.take w.length) prev) (s.drop w.length).head? then
      none
    else some w.length
  else none

/-- Alternatives are tried in order and the first that matches at the position
wins (JavaScript regex alternation). -/
def tryFrags (ic : Bool) (fs : List Frag) (prev : Option Char) (s : List Char) : Option Nat :=
  match fs with
  | [] => none
  | f :: fs =>
    match tryFrag ic f prev s with
    | some n => some n
    | none => tryFrags ic fs prev s

/-- Fuel-indexed helper for `replaceScan` (structural recursion on the fuel so
that closed scans reduce; the fuel never runs out when it starts at
`s.length + 1`, see `replaceScanAux_irrel`). -/
def replaceScanAux (ic : Bool) (fs : List Frag) (resolve : List Char → List Char)
    (clock : Nat → Bool) : Nat → Option Char → List Char → Nat → Except Unit (List Char × Nat)
  | 0, _, _, k => .ok ([], k)
  | _ + 1, prev, [], k =>
    match tryFrags ic fs prev [] with
    | none => .ok ([], k)
    | some _ =>
      if clock k then .error ()
      else .ok (resolve [], k + 1)
  | fuel + 1, prev, c :: s, k =>
    match tryFrags ic fs prev (c :: s) with
    | none =>
      match replaceScanAux ic fs resolve clock fuel (some c) s k with
      | .error e => .error e
      | .ok (t, k') => .ok (c :: t, k')
    | some n =>
      if clock k then .error ()
      else if n = 0 then
        match replaceScanAux ic fs resolve clock fuel (some c) s (k + 1) with
        | .error e => .error e
        | .ok (t, k') => .ok (resolve [] ++ c :: t, k')
      else
        match replaceScanAux ic fs resolve clock fuel (lastCharOr ((c :: s).take n) prev)
            ((c :: s).drop n) (k + 1) with
        | .error e => .error e
        | .ok (t, k') => .ok (resolve ((c :: s).take n) ++ t, k')

/-- Model of `text.replace(regex, replaceCallback)` for a compiled alternation,
including the timeout test that `replaceCallback` performs on every match.
`clock k` is the oracle for `performance.now() - startTime > REGEX_TIMEOUT_MS`
at the k-th callback invocation of the current node's processing; `.error`
models the thrown `Regex timeout` error, which discards the partially built
result string.  On an empty-width match the scanner emits the callback result
and then advances one character, as JavaScript global replace does. -/
def replaceScan (ic : Bool) (fs : List Frag) (resolve : List Char → List Char)
    (clock : Nat → Bool) (prev : Option Char) (s : List Char) (k : Nat) :
    Except Unit (List Char × Nat) :=
  replaceScanAux ic fs resolve clock (s.length + 1) prev s k

/-- Fuel-indexed helper for `replaceScanP`. -/
def replaceScanPAux (ic : Bool) (fs : List Frag) (resolve : List Char → List Char) :
    Nat → Option Char → List Char → List Char
  | 0, _, _ => []
  | _ + 1, prev, [] =>
    match tryFrags ic fs prev [] with
    | none => []
    | some _ => resolve []
  | fuel + 1, prev, c :: s =>
    match tryFrags ic fs prev (c :: s) with
    | none => c :: replaceScanPAux ic fs resolve fuel (some c) s
    | some n =>
      if n = 0 then resolve [] ++ c :: replaceScanPAux ic fs resolve fuel (some c) s
      else
        resolve ((c :: s).take n) ++
          replaceScanPAux ic fs resolve fuel (lastCharOr ((c :: s).take n) prev) ((c :: s).drop n)

/-- The same scan without the clock: the result of a replace pass in which the
time budget is never exceeded. -/
def replaceScanP (ic : Bool) (fs : List Frag) (resolve : List Char → List Char)
    (prev : Option Char) (s : List Char) : List Char :=
  replaceScanPAux ic fs resolve (s.length + 1) prev s

/-- Model of `replaceCallback` of the current `content.js`, minus the timeout
test (threaded through `replaceScan`): exact lookup in `wordMapCache`, then
lowercase lookup in `wordMapCacheLower`, then the identity fallback.  This is
the idealized own-property resolver; the JavaScript prototype-chain reads of
the two truthiness tests are modelled by `replaceCallbackJS` below, which
agrees with this definition whenever neither looked-up name reaches
`Object.prototype`. -/
def replaceCallback (st : CompiledState) (m : List Char) : List Char :=
  match objGet st.wordMapCache (String.mk m) with
  | some d => d.replacement.data
  | none =>
    match objGet st.wordMapCacheLower (String.mk (m.map Char.toLower)) with
    | some d => d.replacement.data
    | none => m

/-- Model of the earlier revision's `replaceCallback`: exact lookup, then a
linear scan over all keys of `wordMapCache` in insertion order comparing
lowercased keys, then the identity fallback. -/
def replaceCallbackOld (cache : WordMap) (m : List Char) : List Char :=
  match objGet cache (String.mk m) with
  | some d => d.replacement.data
  | none =>
    match cache.find? (fun p => lowerStr p.1 == String.mk (m.map Char.toLower)) with
    | some p => p.2.replacement.data
    | none => m

/-- A DOM text node together with the facts about its parent chain that the
engine consults: the parent element's tag name, the `isContentEditable` flags
of the parent and (when present) grandparent, and the node's `nodeValue`. -/
structure TextNode where
  parentTag : String
  parentContentEditable : Bool
  grandparentContentEditable : Bool
  value : List Char
deriving DecidableEq, Repr

/-- The fixed exclusion set of parent tags never touched. -/
def ignoredTags : List String := ["SCRIPT", "STYLE", "NOSCRIPT", "TEXTAREA", "INPUT"]

/-- Model of `isEditable(node.parentNode)`: the parent's `isContentEditable`,
or the grandparent's, taken as false when the element is absent. -/
def isEditable (n : TextNode) : Bool :=
  n.parentContentEditable || n.grandparentContentEditable

/-- The skip test shared by `processNode` and the tree-walker filters. -/
def nodeExcluded (n : TextNode) : Bool :=
  ignoredTags.contains n.parentTag || isEditable n

/-- Result of processing one node: the (possibly updated) node, whether the
timeout warning was logged, and whether `node.nodeValue` was assigned. -/
structure ProcResult where
  node : TextNode
  warned : Bool
  wrote : Bool
deriving DecidableEq, Repr

/-- The per-node time budget of `content.js`, in milliseconds.  The abstract
clock `clock k` stands for `performance.now() - startTime > REGEX_TIMEOUT_MS`
sampled at the k-th match callback. -/
def REGEX_TIMEOUT_MS : Nat := 100

/-- A clock that never reports the budget as exceeded. -/
def noClock : Nat → Bool := fun _ => false

/-- One replace pass of `processNode`: skipped when the regex is `null`. -/
def runRegex (orx : Option CompiledRegex) (resolve : List Char → List Char)
    (clock : Nat → Bool) (t : List Char) (k : Nat) : Except Unit (List Char × Nat) :=
  match orx with
  | none => .ok (t, k)
  | some rx => replaceScan rx.ignoreCase rx.frags resolve clock none t k

/-- Model of `processNode` of the current `content.js`: the guard checks, the
case-sensitive pass, the case-insensitive pass over its output, the
changed-only write-back, and the catch of the timeout error (which logs a
warning and returns without writing). -/
def processNode (extensionEnabled : Bool) (st : CompiledState) (clock : Nat → Bool)
    (node : TextNode) : ProcResult :=
  if !extensionEnabled then ⟨node, false, false⟩
  else if nodeExcluded node then ⟨node, false, false⟩
  else
    match runRegex st.sensitiveRegex (replaceCallback st) clock node.value 0 with
    | .error _ => ⟨node, true, false⟩
    | .ok (t1, k1) =>
      match runRegex st.insensitiveRegex (replaceCallback st) clock t1 k1 with
      | .error _ => ⟨node, true, false⟩
      | .ok (t2, _) =>
        if t1 ≠ node.value ∨ t2 ≠ t1 then ⟨{ node with value := t2 }, false, true⟩
        else ⟨node, false, false⟩

/-- The shared body of the two tree walkers: visit the text nodes in document
order, leave the filter-rejected ones untouched, process the rest.  `clocks i`
is the clock of the i-th node's `processNode` call. -/
def walkNodes (en : Bool) (st : CompiledState) (clocks : Nat → Nat → Bool) :
    Nat → List TextNode → List TextNode
  | _, [] => []
  | i, n :: ns =>
    (if nodeExcluded n then n else (processNode en st (clocks i) n).node)
      :: walkNodes en st clocks (i + 1) ns

/-- Model of `processDocument`: its guards, then the TreeWalker pass over the
document-order text nodes of `document.body`. -/
def processDocument (en : Bool) (st : CompiledState) (clocks : Nat → Nat → Bool)
    (nodes : List TextNode) : List TextNode :=
  if !en then nodes
  else if st.sensitiveRegex.isNone && st.insensitiveRegex.isNone then nodes
  else walkNodes en st clocks 0 nodes

/-- Model of `processElement`: a newly added text node is processed directly
(only `processNode`'s own guards apply), an element is walked like
`processDocument` walks the body. -/
def processElement (en : Bool) (st : CompiledState) (clocks : Nat → Nat → Bool) :
    Sum TextNode (List TextNode) → Sum TextNode (List TextNode)
  | .inl n =>
    if !en then .inl n
    else if st.sensitiveRegex.isNone && st.insensitiveRegex.isNone then .inl n
    else .inl (processNode en st (clocks 0) n).node
  | .inr ns =>
    if !en then .inr ns
    else if st.sensitiveRegex.isNone && st.insensitiveRegex.isNone then .inr ns
    else .inr (walkNodes en st clocks 0 ns)

/-- The clock-free counterpart of `runRegex`: the text produced by one replace
pass when the budget is never exceeded. -/
def runRegexP (orx : Option CompiledRegex) (resolve : List Char → List Char)
    (t : List Char) : List Char :=
  match orx with
  | none => t
  | some rx => replaceScanP rx.ignoreCase rx.frags resolve none t

/-- Both replace passes of `processNode` in order (case-sensitive first), with
no timeout: the final text of a successfully processed node. -/
def bothPassesP (st : CompiledState) (t : List Char) : List Char :=
  runRegexP st.insensitiveRegex (replaceCallback st)
    (runRegexP st.sensitiveRegex (replaceCallback st) t)

/-- Does the list contain a word character? -/
def hasWord (l : List Char) : Bool := l.any isWordChar

/-- Replace every maximal run of word characters in the text by its image
under `f`, leaving all other characters in place.  This is the observable
effect of one replace pass when every alternation fragment is a non-empty
all-word-character key (see `replaceScanP_eq_mapRuns`). -/
def mapRuns (f : List Char → List Char) : List Char → List Char
  | [] => []
  | c :: s =>
    if isWordChar c then
      f (c :: s.takeWhile isWordChar) ++ mapRuns f (s.dropWhile isWordChar)
    else c :: mapRuns f s
termination_by s => s.length
decreasing_by
  all_goals simp_wf
  all_goals first
    | omega
    | exact Nat.lt_succ_of_le (List.Sublist.length_le (List.dropWhile_sublist _))

/-- Does this fragment's key coincide with the word run `r` up to the case
folding of the pass? -/
def fragMatchesRun (ic : Bool) (f : Frag) (r : List Char) : Bool :=
  f.word.data.map (charFold ic) == r.map (charFold ic)

/-- Does any fragment of the alternation match the word run `r`? -/
def anyFragRun (ic : Bool) (fs : List Frag) (r : List Char) : Bool :=
  fs.any (fun f => fragMatchesRun ic f r)

/-- The per-run effect of one replace pass with all-word keys: a run matched
by some fragment is resolved, any other run is kept. -/
def runEffect (orx : Option CompiledRegex) (resolve : List Char → List Char)
    (r : List Char) : List Char :=
  match orx with
  | none => r
  | some rx => if anyFragRun rx.ignoreCase rx.frags r then resolve r else r

/-- Well-formed all-word alternation: every fragment's key is a non-empty
string of word characters (hence carries both boundary markers). -/
def goodFrags (fs : List Frag) : Prop :=
  ∀ f ∈ fs, f.word.data ≠ [] ∧ (∀ c ∈ f.word.data, isWordChar c = true) ∧
    f.bdL = true ∧ f.bdR = true

/-- All keys of enabled rules are non-empty strings of word characters. -/
def keysAllWord (wm : WordMap) : Prop :=
  ∀ p ∈ wm, ruleEnabled p.2 = true →
    p.1.data ≠ [] ∧ ∀ c ∈ p.1.data, isWordChar c = true

/-- No enabled rule's replacement text contains a word character. -/
def replacementsNoWord (wm : WordMap) : Prop :=
  ∀ p ∈ wm, ruleEnabled p.2 = true → ∀ c ∈ p.2.replacement.data, isWordChar c = false

/-- The side condition of the idempotence claim, exactly as stated: no rule's
replacement value equals or contains another rule's key that maps to a
different replacement value. -/
def noForeignKeyInReplacement (wm : WordMap) : Bool :=
  wm.all (fun p => wm.all (fun q =>
    p == q || !(decide (List.IsInfix q.1.data p.2.replacement.data)) ||
      q.2.replacement == p.2.replacement))

/-- The keys appearing in a compiled alternation, in order. -/
def fragWords (orx : Option CompiledRegex) : List String :=
  match orx with
  | none => []
  | some rx => rx.frags.map Frag.word

/-- The fragment list of an optional compiled regex. -/
def fragsOf (orx : Option CompiledRegex) : List Frag :=
  match orx with
  | none => []
  | some rx => rx.frags

/-- Shorthand for a stored rule with an absent `enabled` field. -/
def ruleMk (repl : String) (cs : Bool) : RuleData := ⟨repl, cs, none⟩

/-- A text node under an ordinary paragraph element, not editable. -/
def plainNode (v : String) : TextNode := ⟨"P", false, false, v.data⟩

/-- The two-rule set of the longest-match claim, shorter key first. -/
def superWordMap : WordMap :=
  [("super", ruleMk "X" false), ("superman", ruleMk "Y" false)]

/-- The two-rule set of the longest-match claim, longer key first. -/
def superWordMapRev : WordMap :=
  [("superman", ruleMk "Y" false), ("super", ruleMk "X" false)]

/-- The longest-match rule set extended by a third enabled rule. -/
def superWordMapPlus : WordMap :=
  [("super", ruleMk "X" false), ("superman", ruleMk "Y" false), ("flies", ruleMk "Z" false)]

/-- Single boundary-claim rule with an all-word key. -/
def catWordMap : WordMap := [("cat", ruleMk "X" false)]

/-- Single boundary-claim rule whose key ends in a non-word character. -/
def catDotWordMap : WordMap := [("cat.", ruleMk "X" false)]

/-- The case-sensitive rule of the case-sensitivity claim. -/
def dogSensWordMap : WordMap := [("Dog", ruleMk "Cat" true)]

/-- The same rule, case-insensitive. -/
def dogInsensWordMap : WordMap := [("Dog", ruleMk "Cat" false)]

/-- Rule set of the timeout counterexample: one case-sensitive rule that fires
in the first pass and one case-insensitive rule that fires in the second. -/
def timeoutWordMap : WordMap := [("Dog", ruleMk "Cat" true), ("fox", ruleMk "hen" false)]

/-- A clock whose budget is exceeded from the second match callback on. -/
def lateClock : Nat → Bool := fun k => decide (1 ≤ k)

/-- Rule set of the idempotence counterexample: replacements carry none of the
keys, yet a replacement creates a new match at its seam with the rest of the
text. -/
def seamWordMap : WordMap := [("x-", ruleMk "-" false), ("-y", ruleMk "z" false)]

/-- Rule set of the resolver-equivalence counterexample: two keys equal up to
letter case, the first case-sensitive, the second not. -/
def twinKeyWordMap : WordMap := [("Dog", ruleMk "A" true), ("dog", ruleMk "B" false)]

/-- A text node inside a script element whose text matches the rule key
"cat". -/
def scriptNode : TextNode := ⟨"SCRIPT", false, false, "cat".data⟩

/-- Rule set of the idempotence witness: all-word keys, word-free
replacements. -/
def starWordMap : WordMap := [("cat", ruleMk "*" false), ("Dog", ruleMk "!" true)]

/-- The string-keyed properties every plain `\x7b\x7d` object inherits from
`Object.prototype` in V8.  The lookup tables of `content.js` are plain object
literals, so `cache[k]` for any of these names is truthy even when `k` is not
an own key: it yields the inherited member (a function, or the prototype
object itself for `__proto__`). -/
def protoNames : List String :=
  ["constructor", "hasOwnProperty", "isPrototypeOf", "propertyIsEnumerable",
   "toLocaleString", "toString", "valueOf", "__defineGetter__",
   "__defineSetter__", "__lookupGetter__", "__lookupSetter__", "__proto__"]

/-- Outcome of the JavaScript property read `cache[k]` on a
`\x7b\x7d`-prototyped table: an own entry, a truthy `Object.prototype` member
(whose `.replacement` is `undefined`), or `undefined`. -/
inductive JsRead where
  | own : RuleData → JsRead
  | protoHit : JsRead
  | undef : JsRead
deriving DecidableEq, Repr

/-- The JavaScript property read `cache[k]`: own properties shadow the
prototype, otherwise the read falls through to `Object.prototype`. -/
def jsGet (m : WordMap) (k : String) : JsRead :=
  match objGet m k with
  | some d => JsRead.own d
  | none => if k ∈ protoNames then JsRead.protoHit else JsRead.undef

/-- `replaceCallback` of the current `content.js` with JavaScript property
read semantics, minus the timeout test (threaded through `replaceScan`): the
truthiness tests `wordMapCache[match]` and `wordMapCacheLower[lowerMatch]`
also reach `Object.prototype`, in which case `.replacement` is `undefined`
and `String.replace` coerces the callback's return value to the text
"undefined". -/
def replaceCallbackJS (st : CompiledState) (m : List Char) : List Char :=
  match jsGet st.wordMapCache (String.mk m) with
  | JsRead.own d => d.replacement.data
  | JsRead.protoHit => "undefined".data
  | JsRead.undef =>
    match jsGet st.wordMapCacheLower (String.mk (m.map Char.toLower)) with
    | JsRead.own d => d.replacement.data
    | JsRead.protoHit => "undefined".data
    | JsRead.undef => m

/-- `processNode` of the current `content.js` with the JavaScript property
read semantics of the lookup tables (same guards, passes, write-back and
catch as `processNode`). -/
def processNodeJS (extensionEnabled : Bool) (st : CompiledState) (clock : Nat → Bool)
    (node : TextNode) : ProcResult :=
  if !extensionEnabled then ⟨node, false, false⟩
  else if nodeExcluded node then ⟨node, false, false⟩
  else
    match runRegex st.sensitiveRegex (replaceCallbackJS st) clock node.value 0 with
    | .error _ => ⟨node, true, false⟩
    | .ok (t1, k1) =>
      match runRegex st.insensitiveRegex (replaceCallbackJS st) clock t1 k1 with
      | .error _ => ⟨node, true, false⟩
      | .ok (t2, _) =>
        if t1 ≠ node.value ∨ t2 ≠ t1 then ⟨{ node with value := t2 }, false, true⟩
        else ⟨node, false, false⟩

/-- Both replace passes with the JavaScript property read semantics, no
timeout. -/
def bothPassesPJS (st : CompiledState) (t : List Char) : List Char :=
  runRegexP st.insensitiveRegex (replaceCallbackJS st)
    (runRegexP st.sensitiveRegex (replaceCallbackJS st) t)

/-- No enabled rule's key lowercases to an `Object.prototype` member name or
to the lowercase of one — then no matched substring's table lookup can stray
onto the prototype chain. -/
def protoSafe (wm : WordMap) : Prop :=
  ∀ p ∈ wm, ruleEnabled p.2 = true →
    ∀ q ∈ protoNames, lowerStr p.1 ≠ q ∧ lowerStr p.1 ≠ lowerStr q

/-- Rule set whose single enabled case-insensitive key is a prototype member
name up to case. -/
def ctorWordMap : WordMap := [("Constructor", ruleMk "wow" false)]

/-- Two enabled case-insensitive rules whose compiled patterns order against
key length: key "cat" compiles to a 7-character pattern (two boundary
markers), key "cat-" only to a 6-character one (one marker). -/
def catDashWordMap : WordMap := [("cat", ruleMk "X" false), ("cat-", ruleMk "Y" false)]

/-- The per-run effect of the case-sensitive pass of the compiled state of
`wm` (used in the idempotence analysis). -/
def sensEffect (wm : WordMap) : List Char → List Char :=
  runEffect (updateRegexes wm).sensitiveRegex (replaceCallback (updateRegexes wm))

/-- The per-run effect of the case-insensitive pass of the compiled state of
`wm`. -/
def insensEffect (wm : WordMap) : List Char → List Char :=
  runEffect (updateRegexes wm).insensitiveRegex (replaceCallback (updateRegexes wm))

/-- The combined per-run effect of the two passes in order: if the sensitive
pass replaced the run by word-free text the insensitive pass leaves it alone,
otherwise the insensitive pass acts on the unchanged run. -/
def bothEffect (wm : WordMap) (r : List Char) : List Char :=
  if hasWord (sensEffect wm r) then insensEffect wm r else sensEffect wm r

/-- The last enabled entry of `wm` with key `k` — what `activeMap[k]` holds
after the `updateRegexes` loop. -/
def lastEnabledGet (wm : WordMap) (k : String) : Option RuleData :=
  wm.foldl (fun o p => if ruleEnabled p.2 && (p.1 == k) then some p.2 else o) none

/-- The last enabled case-insensitive entry of `wm` whose lowercased key is
`l` — what `activeLowerMap[l]` holds after the `updateRegexes` loop. -/
def lastEnabledLowerGet (wm : WordMap) (l : String) : Option RuleData :=
  wm.foldl
    (fun o p =>
      if ruleEnabled p.2 && !p.2.caseSensitive && (lowerStr p.1 == l) then some p.2 else o)
    none

/-! Basic lemmas about the scanner. -/

theorem replaceScanAux_irrel (ic : Bool) (fs : List Frag) (res : List Char → List Char)
    (clock : Nat → Bool) :
    ∀ (f : Nat) (g : Nat) (prev : Option Char) (s : List Char) (k : Nat),
      s.length < f → s.length < g →
      replaceScanAux ic fs res clock f prev s k = replaceScanAux ic fs res clock g prev s k := by
  intro f
  induction f with
  | zero => intro g prev s k hf _; omega
  | succ f ih =>
    intro g prev s k hf hg
    match g, hg with
    | g + 1, hg =>
      match s, hf, hg with
      | [], _, _ => rfl
      | c :: s, hf, hg =>
        show (match tryFrags ic fs prev (c :: s) with
              | none => _
              | some n => _) = _
        cases htf : tryFrags ic fs prev (c :: s) with
        | none =>
          simp only [replaceScanAux, htf]
          rw [ih g (some c) s k (by simpa using hf) (by simpa using hg)]
        | some n =>
          simp only [replaceScanAux, htf]
          by_cases hc : clock k
          · simp [hc]
          · rw [if_neg hc, if_neg hc]
            by_cases hn : n = 0
            · subst hn
              rw [if_pos rfl, if_pos rfl]
              rw [ih g (some c) s (k + 1) (by simpa using hf) (by simpa using hg)]
            · rw [if_neg hn, if_neg hn]
              rw [ih g (lastCharOr ((c :: s).take n) prev) ((c :: s).drop n) (k + 1)
                    (by simp only [List.length_drop, List.length_cons] at hf ⊢; omega)
                    (by simp only [List.length_drop, List.length_cons] at hg ⊢; omega)]

theorem replaceScan_nil (ic : Bool) (fs : List Frag) (res : List Char → List Char)
    (clock : Nat → Bool) (prev : Option Char) (k : Nat) :
    replaceScan ic fs res clock prev [] k =
      match tryFrags ic fs prev [] with
      | none => .ok ([], k)
      | some _ => if clock k then .error () else .ok (res [], k + 1) := rfl

theorem replaceScan_cons (ic : Bool) (fs : List Frag) (res : List Char → List Char)
    (clock : Nat → Bool) (prev : Option Char) (c : Char) (s : List Char) (k : Nat) :
    replaceScan ic fs res clock prev (c :: s) k =
      match tryFrags ic fs prev (c :: s) with
      | none =>
        match replaceScan ic fs res clock (some c) s k with
        | .error e => .error e
        | .ok (t, k') => .ok (c :: t, k')
      | some n =>
        if clock k then .error ()
        else if n = 0 then
          match replaceScan ic fs res clock (some c) s (k + 1) with
          | .error e => .error e
          | .ok (t, k') => .ok (res [] ++ c :: t, k')
        else
          match replaceScan ic fs res clock (lastCharOr ((c :: s).take n) prev)
              ((c :: s).drop n) (k + 1) with
          | .error e => .error e
          | .ok (t, k') => .ok (res ((c :: s).take n) ++ t, k') := by
  show replaceScanAux ic fs res clock ((c :: s).length + 1) prev (c :: s) k = _
  cases htf : tryFrags ic fs prev (c :: s) with
  | none =>
    simp only [List.length_cons, replaceScanAux, htf]
    rfl
  | some n =>
    simp only [List.length_cons, replaceScanAux, htf]
    by_cases hc : clock k
    · simp [hc]
    · rw [if_neg hc, if_neg hc]
      by_cases hn : n = 0
      · subst hn
        rfl
      · rw [if_neg hn, if_neg hn]
        rw [show replaceScan ic fs res clock (lastCharOr ((c :: s).take n) prev)
              ((c :: s).drop n) (k + 1) =
            replaceScanAux ic fs res clock (((c :: s).drop n).length + 1)
              (lastCharOr ((c :: s).take n) prev) ((c :: s).drop n) (k + 1) from rfl]
        rw [replaceScanAux_irrel ic fs res clock (s.length + 1) (((c :: s).drop n).length + 1)
              _ _ _ (by simp only [List.length_drop, List.length_cons]; omega) (by omega)]

theorem replaceScanPAux_irrel (ic : Bool) (fs : List Frag) (res : List Char → List Char) :
    ∀ (f : Nat) (g : Nat) (prev : Option Char) (s : List Char),
      s.length < f → s.length < g →
      replaceScanPAux ic fs res f prev s = replaceScanPAux ic fs res g prev s := by
  intro f
  induction f with
  | zero => intro g prev s hf _; omega
  | succ f ih =>
    intro g prev s hf hg
    match g, hg with
    | g + 1, hg =>
      match s, hf, hg with
      | [], _, _ => rfl
      | c :: s, hf, hg =>
        cases htf : tryFrags ic fs prev (c :: s) with
        | none =>
          simp only [replaceScanPAux, htf]
          rw [ih g (some c) s (by simpa using hf) (by simpa using hg)]
        | some n =>
          simp only [replaceScanPAux, htf]
          by_cases hn : n = 0
          · subst hn
            rw [if_pos rfl, if_pos rfl]
            rw [ih g (some c) s (by simpa using hf) (by simpa using hg)]
          · rw [if_neg hn, if_neg hn]
            rw [ih g (lastCharOr ((c :: s).take n) prev) ((c :: s).drop n)
                  (by simp only [List.length_drop, List.length_cons] at hf ⊢; omega)
                  (by simp only [List.length_drop, List.length_cons] at hg ⊢; omega)]

theorem replaceScanP_nil (ic : Bool) (fs : List Frag) (res : List Char → List Char)
    (prev : Option Char) :
    replaceScanP ic fs res prev [] =
      match tryFrags ic fs prev [] with
      | none => []
      | some _ => res [] := rfl

theorem replaceScanP_cons (ic : Bool) (fs : List Frag) (res : List Char → List Char)
    (prev : Option Char) (c : Char) (s : List Char) :
    replaceScanP ic fs res prev (c :: s) =
      match tryFrags ic fs prev (c :: s) with
      | none => c :: replaceScanP ic fs res (some c) s
      | some n =>
        if n = 0 then res [] ++ c :: replaceScanP ic fs res (some c) s
        else
          res ((c :: s).take n) ++
            replaceScanP ic fs res (lastCharOr ((c :: s).take n) prev) ((c :: s).drop n) := by
  show replaceScanPAux ic fs res ((c :: s).length + 1) prev (c :: s) = _
  cases htf : tryFrags ic fs prev (c :: s) with
  | none =>
    simp only [List.length_cons, replaceScanPAux, htf]
    rfl
  | some n =>
    simp only [List.length_cons, replaceScanPAux, htf]
    by_cases hn : n = 0
    · subst hn
      rfl
    · rw [if_neg hn, if_neg hn]
      rw [show replaceScanP ic fs res (lastCharOr ((c :: s).take n) prev) ((c :: s).drop n) =
          replaceScanPAux ic fs res (((c :: s).drop n).length + 1)
            (lastCharOr ((c :: s).take n) prev) ((c :: s).drop n) from rfl]
      rw [replaceScanPAux_irrel ic fs res (s.length + 1) (((c :: s).drop n).length + 1) _ _
            (by simp only [List.length_drop, List.length_cons]; omega) (by omega)]

/-- With a clock that never fires, the clocked scan succeeds and returns the
pure scan's text. -/
theorem replaceScan_noClock (ic : Bool) (fs : List Frag) (res : List Char → List Char) :
    ∀ (fuel : Nat) (prev : Option Char) (s : List Char) (k : Nat),
      ∃ k', replaceScanAux ic fs res noClock fuel prev s k =
        .ok (replaceScanPAux ic fs res fuel prev s, k') := by
  intro fuel
  induction fuel with
  | zero => intro prev s k; exact ⟨k, rfl⟩
  | succ fuel ih =>
    intro prev s k
    match s with
    | [] =>
      cases htf : tryFrags ic fs prev [] with
      | none => exact ⟨k, by simp only [replaceScanAux, replaceScanPAux, htf]⟩
      | some n => exact ⟨k + 1, by simp only [replaceScanAux, replaceScanPAux, htf, noClock,
          Bool.false_eq_true, if_false]⟩
    | c :: s =>
      cases htf : tryFrags ic fs prev (c :: s) with
      | none =>
        obtain ⟨k', hk⟩ := ih (some c) s k
        exact ⟨k', by simp only [replaceScanAux, replaceScanPAux, htf, hk]⟩
      | some n =>
        by_cases hn : n = 0
        · subst hn
          obtain ⟨k', hk⟩ := ih (some c) s (k + 1)
          exact ⟨k', by simp only [replaceScanAux, replaceScanPAux, htf, hk, noClock,
            Bool.false_eq_true, if_false, if_pos rfl, if_true]⟩
        · obtain ⟨k', hk⟩ := ih (lastCharOr ((c :: s).take n) prev) ((c :: s).drop n) (k + 1)
          refine ⟨k', ?_⟩
          simp only [replaceScanAux, replaceScanPAux, htf, noClock, Bool.false_eq_true, if_false,
            if_neg hn, hk]

theorem replaceScan_noClock_ok (ic : Bool) (fs : List Frag) (res : List Char → List Char)
    (prev : Option Char) (s : List Char) (k : Nat) :
    ∃ k', replaceScan ic fs res noClock prev s k =
      .ok (replaceScanP ic fs res prev s, k') :=
  replaceScan_noClock ic fs res (s.length + 1) prev s k

theorem runRegex_noClock (orx : Option CompiledRegex) (res : List Char → List Char)
    (t : List Char) (k : Nat) :
    ∃ k', runRegex orx res noClock t k = .ok (runRegexP orx res t, k') := by
  match orx with
  | none => exact ⟨k, rfl⟩
  | some rx => exact replaceScan_noClock_ok rx.ignoreCase rx.frags res none t k

/-- With the master switch on, an unexcluded node and a clock that never
fires, `processNode` computes the two pure passes and writes back exactly on a
change. -/
theorem processNode_noClock (st : CompiledState) (n : TextNode)
    (hx : nodeExcluded n = false) :
    processNode true st noClock n =
      (if runRegexP st.sensitiveRegex (replaceCallback st) n.value ≠ n.value ∨
          bothPassesP st n.value ≠ runRegexP st.sensitiveRegex (replaceCallback st) n.value then
        ⟨{ n with value := bothPassesP st n.value }, false, true⟩
      else ⟨n, false, false⟩) := by
  obtain ⟨k1, h1⟩ := runRegex_noClock st.sensitiveRegex (replaceCallback st) n.value 0
  obtain ⟨k2, h2⟩ := runRegex_noClock st.insensitiveRegex (replaceCallback st)
    (runRegexP st.sensitiveRegex (replaceCallback st) n.value) k1
  simp only [processNode, Bool.not_true, Bool.false_eq_true, if_false, hx, h1, h2, bothPassesP]

/-- Case folding does not change whether a character is a word character. -/
theorem isWordChar_toLower (c : Char) : isWordChar c.toLower = isWordChar c := by
  show isWordChar (if c.toNat ≥ 65 ∧ c.toNat ≤ 90 then Char.ofNat (c.toNat + 32) else c)
    = isWordChar c
  by_cases h : c.toNat ≥ 65 ∧ c.toNat ≤ 90
  · rw [if_pos h]
    have hv : (c.toNat + 32).isValidChar := Or.inl (by omega)
    have ht : (Char.ofNat (c.toNat + 32)).toNat = c.toNat + 32 := by
      rw [Char.ofNat, dif_pos hv]
      rfl
    simp only [isWordChar, ht]
    rw [Bool.eq_iff_iff]
    simp only [Bool.or_eq_true, Bool.and_eq_true, decide_eq_true_eq, beq_iff_eq]
    omega
  · rw [if_neg h]

theorem isWordChar_charFold (ic : Bool) (c : Char) :
    isWordChar (charFold ic c) = isWordChar c := by
  cases ic with
  | false => rfl
  | true => exact isWordChar_toLower c

/-! Lemmas about the compiled tables and fragment lists. -/

theorem mem_insertFragDesc {x z : Frag} {l : List Frag} :
    z ∈ insertFragDesc x l ↔ z = x ∨ z ∈ l := by
  induction l with
  | nil => simp [insertFragDesc]
  | cons y ys ih =>
    by_cases h : patternLen y ≤ patternLen x
    · simp [insertFragDesc, h]
    · simp only [insertFragDesc, if_neg h, List.mem_cons, ih]
      tauto

theorem mem_sortFragsDesc {z : Frag} {l : List Frag} :
    z ∈ sortFragsDesc l ↔ z ∈ l := by
  induction l with
  | nil => simp [sortFragsDesc]
  | cons x xs ih =>
    simp only [sortFragsDesc, mem_insertFragDesc, List.mem_cons, ih]

theorem pairwise_insertFragDesc {x : Frag} {l : List Frag}
    (h : l.Pairwise (fun a b => patternLen b ≤ patternLen a)) :
    (insertFragDesc x l).Pairwise (fun a b => patternLen b ≤ patternLen a) := by
  induction l with
  | nil => simp [insertFragDesc]
  | cons y ys ih =>
    rcases List.pairwise_cons.mp h with ⟨hy, hys⟩
    by_cases hle : patternLen y ≤ patternLen x
    · simp only [insertFragDesc, if_pos hle]
      refine List.pairwise_cons.mpr ⟨?_, h⟩
      intro z hz
      rcases List.mem_cons.mp hz with rfl | hz
      · exact hle
      · exact le_trans (hy z hz) hle
    · simp only [insertFragDesc, if_neg hle]
      refine List.pairwise_cons.mpr ⟨?_, ih hys⟩
      intro z hz
      rcases mem_insertFragDesc.mp hz with rfl | hz
      · omega
      · exact hy z hz

theorem pairwise_sortFragsDesc (l : List Frag) :
    (sortFragsDesc l).Pairwise (fun a b => patternLen b ≤ patternLen a) := by
  induction l with
  | nil => exact List.Pairwise.nil
  | cons x xs ih => exact pairwise_insertFragDesc ih

theorem find?_map_objSet_ne (m : WordMap) (k k' : String) (v : RuleData) (hk : k ≠ k') :
    (m.map (fun p => if p.1 == k' then (k', v) else p)).find? (fun p => p.1 == k)
      = m.find? (fun p => p.1 == k) := by
  induction m with
  | nil => rfl
  | cons q m ih =>
    by_cases hq : (q.1 == k') = true
    · have hqk' : q.1 = k' := beq_iff_eq.mp hq
      have e1 : ((k' : String) == k) = false := beq_eq_false_iff_ne.mpr (fun h => hk h.symm)
      have e2 : (q.1 == k) = false := by
        rw [hqk']
        exact e1
      simp only [List.map_cons, if_pos hq, List.find?_cons, e1, e2, ih]
    · by_cases hq2 : (q.1 == k) = true
      · simp only [List.map_cons, if_neg hq, List.find?_cons, hq2]
      · have e2 : (q.1 == k) = false := by
          cases h : (q.1 == k) with
          | true => exact absurd h hq2
          | false => rfl
        simp only [List.map_cons, if_neg hq, List.find?_cons, e2, ih]

theorem find?_map_objSet_eq (m : WordMap) (k : String) (v : RuleData)
    (hm : m.any (fun p => p.1 == k) = true) :
    (m.map (fun p => if p.1 == k then (k, v) else p)).find? (fun p => p.1 == k)
      = some (k, v) := by
  induction m with
  | nil => simp at hm
  | cons q m ih =>
    by_cases hq : (q.1 == k) = true
    · have e1 : ((k : String) == k) = true := beq_iff_eq.mpr rfl
      simp only [List.map_cons, if_pos hq, List.find?_cons, e1]
    · have hm' : m.any (fun p => p.1 == k) = true := by
        rcases List.any_eq_true.mp hm with ⟨p, hp, hpk⟩
        rcases List.mem_cons.mp hp with rfl | hp'
        · exact absurd hpk hq
        · exact List.any_eq_true.mpr ⟨p, hp', hpk⟩
      have e2 : (q.1 == k) = false := by
        cases h : (q.1 == k) with
        | true => exact absurd h hq
        | false => rfl
      simp only [List.map_cons, if_neg hq]
      rw [@List.find?_cons_of_neg _ (fun p => p.1 == k) q
          (List.map (fun p => if p.1 == k then (k, v) else p) m) hq,
        ih hm']

theorem objGet_objSet (m : WordMap) (k k' : String) (v : RuleData) :
    objGet (objSet m k' v) k = if k = k' then some v else objGet m k := by
  by_cases hk : k = k'
  · subst hk
    rw [if_pos rfl]
    by_cases hm : m.any (fun p => p.1 == k) = true
    · rw [objSet, if_pos hm, objGet, find?_map_objSet_eq m k v hm]
      rfl
    · rw [objSet, if_neg hm, objGet, List.find?_append]
      have h0 : m.find? (fun p => p.1 == k) = none := by
        rw [List.find?_eq_none]
        intro p hp hpk
        exact hm (List.any_eq_true.mpr ⟨p, hp, hpk⟩)
      have e1 : ((k : String) == k) = true := beq_iff_eq.mpr rfl
      rw [h0]
      simp only [Option.none_or, List.find?_cons, e1]
      rfl
  · rw [if_neg hk]
    by_cases hm : m.any (fun p => p.1 == k') = true
    · rw [objSet, if_pos hm, objGet, find?_map_objSet_ne m k k' v hk, objGet]
    · rw [objSet, if_neg hm, objGet, List.find?_append]
      have e1 : ((k' : String) == k) = false := beq_eq_false_iff_ne.mpr (fun h => hk h.symm)
      rw [objGet]
      simp only [List.find?_cons, e1, List.find?_nil, Option.or_none]

theorem objGet_updateStep_activeMap (acc : UpdateAcc) (p : String × RuleData) (k : String) :
    objGet (updateStep acc p).activeMap k =
      if ruleEnabled p.2 && (p.1 == k) then some p.2 else objGet acc.activeMap k := by
  cases he : ruleEnabled p.2 with
  | false => simp [updateStep, he]
  | true =>
    rw [updateStep, if_pos he]
    show objGet (objSet acc.activeMap p.1 p.2) k = _
    rw [objGet_objSet]
    by_cases hk : k = p.1
    · subst hk
      rw [if_pos rfl, if_pos (by simp)]
    · rw [if_neg hk, if_neg]
      simp only [Bool.true_and, beq_iff_eq]
      exact fun h => hk h.symm

theorem objGet_updateStep_activeLowerMap (acc : UpdateAcc) (p : String × RuleData) (l : String) :
    objGet (updateStep acc p).activeLowerMap l =
      if ruleEnabled p.2 && !p.2.caseSensitive && (lowerStr p.1 == l) then some p.2
      else objGet acc.activeLowerMap l := by
  cases he : ruleEnabled p.2 with
  | false => simp [updateStep, he]
  | true =>
    rw [updateStep, if_pos he]
    cases hcs : p.2.caseSensitive with
    | true =>
      show objGet acc.activeLowerMap l = _
      rw [if_neg]
      simp
    | false =>
      show objGet (objSet acc.activeLowerMap (lowerStr p.1) p.2) l = _
      rw [objGet_objSet]
      by_cases hl : l = lowerStr p.1
      · subst hl
        rw [if_pos rfl, if_pos (by simp)]
      · rw [if_neg hl, if_neg]
        simp only [Bool.not_false, Bool.and_true, Bool.true_and, beq_iff_eq]
        exact fun h => hl h.symm

theorem foldl_updateStep_activeMap (wm : WordMap) :
    ∀ (acc : UpdateAcc) (k : String),
      objGet ((wm.foldl updateStep acc).activeMap) k =
        wm.foldl (fun o p => if ruleEnabled p.2 && (p.1 == k) then some p.2 else o)
          (objGet acc.activeMap k) := by
  induction wm with
  | nil => intro acc k; rfl
  | cons p rest ih =>
    intro acc k
    rw [List.foldl_cons, List.foldl_cons, ih, objGet_updateStep_activeMap]

theorem foldl_updateStep_activeLowerMap (wm : WordMap) :
    ∀ (acc : UpdateAcc) (l : String),
      objGet ((wm.foldl updateStep acc).activeLowerMap) l =
        wm.foldl
          (fun o p =>
            if ruleEnabled p.2 && !p.2.caseSensitive && (lowerStr p.1 == l) then some p.2 else o)
          (objGet acc.activeLowerMap l) := by
  induction wm with
  | nil => intro acc l; rfl
  | cons p rest ih =>
    intro acc l
    rw [List.foldl_cons, List.foldl_cons, ih, objGet_updateStep_activeLowerMap]

/-- The exact-lookup table built by `updateRegexes` holds, under each key, the
last enabled entry of the rule set with that key. -/
theorem wordMapCache_updateRegexes (wm : WordMap) (k : String) :
    objGet (updateRegexes wm).wordMapCache k = lastEnabledGet wm k := by
  show objGet ((wm.foldl updateStep ⟨[], [], [], []⟩).activeMap) k = _
  rw [foldl_updateStep_activeMap]
  rfl

/-- The lowercase-lookup table built by `updateRegexes` holds, under each
lowercased key, the last enabled case-insensitive entry that lowercases to
it. -/
theorem wordMapCacheLower_updateRegexes (wm : WordMap) (l : String) :
    objGet (updateRegexes wm).wordMapCacheLower l = lastEnabledLowerGet wm l := by
  show objGet ((wm.foldl updateStep ⟨[], [], [], []⟩).activeLowerMap) l = _
  rw [foldl_updateStep_activeLowerMap]
  rfl

theorem foldl_updateStep_sensitiveWords (wm : WordMap) :
    ∀ (acc : UpdateAcc),
      (wm.foldl updateStep acc).sensitiveWords =
        acc.sensitiveWords ++
          (wm.filter (fun p => ruleEnabled p.2 && p.2.caseSensitive)).map Prod.fst := by
  induction wm with
  | nil => intro acc; simp
  | cons p rest ih =>
    intro acc
    rw [List.foldl_cons, ih]
    cases he : ruleEnabled p.2 with
    | false => simp [updateStep, he, List.filter_cons]
    | true =>
      cases hcs : p.2.caseSensitive with
      | false => simp [updateStep, he, hcs, List.filter_cons]
      | true => simp [updateStep, he, hcs, List.filter_cons]

theorem foldl_updateStep_insensitiveWords (wm : WordMap) :
    ∀ (acc : UpdateAcc),
      (wm.foldl updateStep acc).insensitiveWords =
        acc.insensitiveWords ++
          (wm.filter (fun p => ruleEnabled p.2 && !p.2.caseSensitive)).map Prod.fst := by
  induction wm with
  | nil => intro acc; simp
  | cons p rest ih =>
    intro acc
    rw [List.foldl_cons, ih]
    cases he : ruleEnabled p.2 with
    | false => simp [updateStep, he, List.filter_cons]
    | true =>
      cases hcs : p.2.caseSensitive with
      | false => simp [updateStep, he, hcs, List.filter_cons]
      | true => simp [updateStep, he, hcs, List.filter_cons]

theorem mem_fragWords_buildRegex (ws : List String) (cs : Bool) (w : String) :
    w ∈ fragWords (buildRegex ws cs) ↔ w ∈ ws := by
  by_cases h : ws = []
  · subst h
    simp [buildRegex, fragWords]
  · rw [buildRegex, if_neg h]
    show w ∈ (sortFragsDesc (ws.map mkFrag)).map Frag.word ↔ _
    constructor
    · intro hw
      rcases List.mem_map.mp hw with ⟨f, hf, rfl⟩
      rcases List.mem_map.mp (mem_sortFragsDesc.mp hf) with ⟨v, hv, rfl⟩
      exact hv
    · intro hw
      exact List.mem_map.mpr ⟨mkFrag w, mem_sortFragsDesc.mpr (List.mem_map.mpr ⟨w, hw, rfl⟩), rfl⟩

/-- The keys of the case-sensitive alternation are exactly the keys of enabled
case-sensitive rules. -/
theorem mem_fragWords_sensitive (wm : WordMap) (w : String) :
    w ∈ fragWords (updateRegexes wm).sensitiveRegex ↔
      ∃ d, (w, d) ∈ wm ∧ ruleEnabled d = true ∧ d.caseSensitive = true := by
  show w ∈ fragWords (buildRegex (wm.foldl updateStep ⟨[], [], [], []⟩).sensitiveWords true) ↔ _
  rw [mem_fragWords_buildRegex, foldl_updateStep_sensitiveWords]
  simp only [List.nil_append, List.mem_map, List.mem_filter, Bool.and_eq_true]
  constructor
  · rintro ⟨p, ⟨hp, he, hcs⟩, rfl⟩
    exact ⟨p.2, hp, he, hcs⟩
  · rintro ⟨d, hp, he, hcs⟩
    exact ⟨(w, d), ⟨hp, he, hcs⟩, rfl⟩

/-- The keys of the case-insensitive alternation are exactly the keys of
enabled case-insensitive rules. -/
theorem mem_fragWords_insensitive (wm : WordMap) (w : String) :
    w ∈ fragWords (updateRegexes wm).insensitiveRegex ↔
      ∃ d, (w, d) ∈ wm ∧ ruleEnabled d = true ∧ d.caseSensitive = false := by
  show w ∈ fragWords (buildRegex (wm.foldl updateStep ⟨[], [], [], []⟩).insensitiveWords false) ↔ _
  rw [mem_fragWords_buildRegex, foldl_updateStep_insensitiveWords]
  simp only [List.nil_append, List.mem_map, List.mem_filter, Bool.and_eq_true,
    Bool.not_eq_true']
  constructor
  · rintro ⟨p, ⟨hp, he, hcs⟩, rfl⟩
    exact ⟨p.2, hp, he, hcs⟩
  · rintro ⟨d, hp, he, hcs⟩
    exact ⟨(w, d), ⟨hp, he, hcs⟩, rfl⟩

/-- Every fragment of either compiled alternation is the fragment of one of
the listed words. -/
theorem mem_fragsOf_buildRegex (ws : List String) (cs : Bool) (f : Frag) :
    f ∈ fragsOf (buildRegex ws cs) ↔ ∃ w ∈ ws, f = mkFrag w := by
  by_cases h : ws = []
  · subst h
    simp [buildRegex, fragsOf]
  · rw [buildRegex, if_neg h]
    show f ∈ sortFragsDesc (ws.map mkFrag) ↔ _
    rw [mem_sortFragsDesc]
    constructor
    · intro hf
      rcases List.mem_map.mp hf with ⟨v, hv, rfl⟩
      exact ⟨v, hv, rfl⟩
    · rintro ⟨w, hw, rfl⟩
      exact List.mem_map.mpr ⟨w, hw, rfl⟩

theorem lastEnabledGet_of_no_key (wm : WordMap) (k : String)
    (h : ∀ p ∈ wm, p.1 ≠ k) :
    ∀ (o : Option RuleData),
      wm.foldl (fun o p => if ruleEnabled p.2 && (p.1 == k) then some p.2 else o) o = o := by
  induction wm with
  | nil => intro o; rfl
  | cons p rest ih =>
    intro o
    rw [List.foldl_cons]
    have hk : (p.1 == k) = false :=
      beq_eq_false_iff_ne.mpr (h p (List.mem_cons_self p rest))
    rw [hk, Bool.and_false, if_neg (by simp)]
    exact ih (fun q hq => h q (List.mem_cons_of_mem p hq)) o

theorem lastEnabledGet_mem_aux (wm : WordMap) (k : String) (d' : RuleData) :
    ∀ (o : Option RuleData),
      wm.foldl (fun o p => if ruleEnabled p.2 && (p.1 == k) then some p.2 else o) o = some d' →
      ((k, d') ∈ wm ∧ ruleEnabled d' = true) ∨ o = some d' := by
  induction wm with
  | nil => intro o h; exact Or.inr h
  | cons p rest ih =>
    intro o h
    rw [List.foldl_cons] at h
    rcases ih _ h with hmem | ho
    · exact Or.inl ⟨List.mem_cons_of_mem p hmem.1, hmem.2⟩
    · by_cases hcond : (ruleEnabled p.2 && (p.1 == k)) = true
      · rw [if_pos hcond] at ho
        have hcond2 := hcond
        simp only [Bool.and_eq_true] at hcond2
        rcases hcond2 with ⟨he, hk⟩
        have hd : p.2 = d' := Option.some.inj ho
        have hpk : p.1 = k := beq_iff_eq.mp hk
        refine Or.inl ⟨?_, hd ▸ he⟩
        have : p = (k, d') := by
          rcases p with ⟨pk, pd⟩
          simp only at hd hpk
          rw [hd, hpk]
        rw [← this]
        exact List.mem_cons_self p rest
      · rw [if_neg hcond] at ho
        exact Or.inr ho

/-- Every value in the exact-lookup table comes from an enabled rule of the
snapshot, stored under that rule's own key. -/
theorem lastEnabledGet_mem (wm : WordMap) (k : String) (d' : RuleData)
    (h : lastEnabledGet wm k = some d') : (k, d') ∈ wm ∧ ruleEnabled d' = true := by
  rcases lastEnabledGet_mem_aux wm k d' none h with hm | hnone
  · exact hm
  · cases hnone

theorem lastEnabledLowerGet_mem_aux (wm : WordMap) (l : String) (d' : RuleData) :
    ∀ (o : Option RuleData),
      wm.foldl
        (fun o p =>
          if ruleEnabled p.2 && !p.2.caseSensitive && (lowerStr p.1 == l) then some p.2 else o)
        o = some d' →
      (∃ k, (k, d') ∈ wm ∧ ruleEnabled d' = true ∧ d'.caseSensitive = false ∧ lowerStr k = l) ∨
        o = some d' := by
  induction wm with
  | nil => intro o h; exact Or.inr h
  | cons p rest ih =>
    intro o h
    rw [List.foldl_cons] at h
    rcases ih _ h with hmem | ho
    · rcases hmem with ⟨k, hk1, hk2, hk3, hk4⟩
      exact Or.inl ⟨k, List.mem_cons_of_mem p hk1, hk2, hk3, hk4⟩
    · by_cases hcond : (ruleEnabled p.2 && !p.2.caseSensitive && (lowerStr p.1 == l)) = true
      · rw [if_pos hcond] at ho
        have hd : p.2 = d' := Option.some.inj ho
        have hcond2 := hcond
        simp only [Bool.and_eq_true] at hcond2
        rcases hcond2 with ⟨⟨he, hcs⟩, hl⟩
        refine Or.inl ⟨p.1, ?_, hd ▸ he, ?_, beq_iff_eq.mp hl⟩
        · rw [show ((p.1, d') : String × RuleData) = p by rw [← hd]]
          exact List.mem_cons_self p rest
        · rw [← hd]
          exact Bool.not_eq_true' .. ▸ hcs
      · rw [if_neg hcond] at ho
        exact Or.inr ho

/-- Every value in the lowercase-lookup table comes from an enabled
case-insensitive rule whose lowercased key indexes it. -/
theorem lastEnabledLowerGet_mem (wm : WordMap) (l : String) (d' : RuleData)
    (h : lastEnabledLowerGet wm l = some d') :
    ∃ k, (k, d') ∈ wm ∧ ruleEnabled d' = true ∧ d'.caseSensitive = false ∧ lowerStr k = l := by
  rcases lastEnabledLowerGet_mem_aux wm l d' none h with hm | hnone
  · exact hm
  · cases hnone

/-- Under unique keys, the exact-lookup table is just the enabled filter:
looking up the key of a listed rule yields that rule exactly when it is
enabled. -/
theorem lastEnabledGet_nodup (wm : WordMap) (k : String) (d : RuleData)
    (hnd : (wm.map Prod.fst).Nodup) (hmem : (k, d) ∈ wm) :
    lastEnabledGet wm k = if ruleEnabled d then some d else none := by
  induction wm with
  | nil => cases hmem
  | cons p rest ih =>
    rcases List.nodup_cons.mp hnd with ⟨hp, hrest⟩
    rcases List.mem_cons.mp hmem with rfl | hmem'
    · show List.foldl _ (if ruleEnabled d && ((k, d).1 == k) then some (k, d).2 else none)
        rest = _
      have hnok : ∀ q ∈ rest, q.1 ≠ k := by
        intro q hq hqk
        exact hp (List.mem_map.mpr ⟨q, hq, hqk⟩)
      rw [lastEnabledGet_of_no_key rest k hnok]
      have : ((k, d).1 == k) = true := beq_iff_eq.mpr rfl
      rw [this, Bool.and_true]
    · have hpk : p.1 ≠ k := by
        intro hpk
        exact hp (List.mem_map.mpr ⟨(k, d), hmem', hpk ▸ rfl⟩)
      show List.foldl _ (if ruleEnabled p.2 && (p.1 == k) then some p.2 else none) rest = _
      rw [beq_eq_false_iff_ne.mpr hpk, Bool.and_false, if_neg (by simp)]
      exact ih hrest hmem'

/-- `processNode` either leaves the node alone (possibly logging the timeout
warning) or replaces exactly its text value. -/
theorem processNode_cases (en : Bool) (st : CompiledState) (clock : Nat → Bool)
    (n : TextNode) :
    processNode en st clock n = ⟨n, false, false⟩ ∨
    processNode en st clock n = ⟨n, true, false⟩ ∨
    ∃ t, processNode en st clock n = ⟨{ n with value := t }, false, true⟩ := by
  rw [processNode]
  by_cases he : en = true
  · rw [he]
    simp only [Bool.not_true, Bool.false_eq_true, if_false]
    by_cases hx : nodeExcluded n = true
    · rw [if_pos hx]
      exact Or.inl rfl
    · rw [if_neg hx]
      split
      · exact Or.inr (Or.inl rfl)
      · split
        · exact Or.inr (Or.inl rfl)
        · split
          · exact Or.inr (Or.inr ⟨_, rfl⟩)
          · exact Or.inl rfl
  · have : en = false := by
      cases en
      · rfl
      · exact absurd rfl he
    rw [this]
    exact Or.inl rfl

/-- The timeout catch returns before the write-back: a warned node is returned
unchanged and unwritten. -/
theorem processNode_warned (en : Bool) (st : CompiledState) (clock : Nat → Bool)
    (n : TextNode) (h : (processNode en st clock n).warned = true) :
    (processNode en st clock n).node = n ∧ (processNode en st clock n).wrote = false := by
  rcases processNode_cases en st clock n with h0 | h0 | ⟨t, h0⟩
  · rw [h0]
    exact ⟨rfl, rfl⟩
  · rw [h0]
    exact ⟨rfl, rfl⟩
  · rw [h0] at h
    cases h

/-- Each position of a tree walk is the per-node result of that position's
input node alone: no node's outcome influences another's. -/
theorem walkNodes_get? (en : Bool) (st : CompiledState) (clocks : Nat → Nat → Bool) :
    ∀ (nodes : List TextNode) (i j : Nat),
      (walkNodes en st clocks i nodes).get? j =
        (nodes.get? j).map
          (fun n => if nodeExcluded n then n else (processNode en st (clocks (i + j)) n).node) := by
  intro nodes
  induction nodes with
  | nil => intro i j; rfl
  | cons n ns ih =>
    intro i j
    cases j with
    | zero => rfl
    | succ j =>
      show (walkNodes en st clocks (i + 1) ns).get? j = _
      rw [ih (i + 1) j]
      have : i + 1 + j = i + (j + 1) := by omega
      rw [this]
      rfl

theorem mkFrag_bdL (w : String) : (mkFrag w).bdL = isWordOpt w.data.head? := by
  simp only [mkFrag]
  cases w.data <;> rfl

theorem mkFrag_bdR (w : String) : (mkFrag w).bdR = isWordOpt w.data.getLast? := by
  simp only [mkFrag]
  cases w.data.getLast? <;> rfl

theorem wordMap_nodup_unique (wm : WordMap) (hnd : (wm.map Prod.fst).Nodup)
    (k : String) (d d' : RuleData) (h1 : (k, d) ∈ wm) (h2 : (k, d') ∈ wm) : d = d' := by
  induction wm with
  | nil => cases h1
  | cons p rest ih =>
    rcases List.nodup_cons.mp hnd with ⟨hp, hrest⟩
    rcases List.mem_cons.mp h1 with rfl | h1'
    · rcases List.mem_cons.mp h2 with he | h2'
      · exact congrArg Prod.snd he.symm
      · exact absurd (List.mem_map.mpr ⟨(k, d'), h2', rfl⟩) hp
    · rcases List.mem_cons.mp h2 with rfl | h2'
      · exact absurd (List.mem_map.mpr ⟨(k, d), h1', rfl⟩) hp
      · exact ih hrest h1' h2'

/-! Claim theorems. -/

/-- C7: with the single rule key "Dog" → "Cat" marked case-sensitive,
processing turns the text "Dog ran" into "Cat ran" but leaves "dog ran"
entirely unchanged; with the same rule case-insensitive both texts become
"Cat ran". -/
theorem C7_case_sensitivity_semantics :
    (processNode true (updateRegexes dogSensWordMap) noClock (plainNode "Dog ran")).node.value
        = "Cat ran".data ∧
    (processNode true (updateRegexes dogSensWordMap) noClock (plainNode "dog ran")).node
        = plainNode "dog ran" ∧
    (processNode true (updateRegexes dogInsensWordMap) noClock (plainNode "Dog ran")).node.value
        = "Cat ran".data ∧
    (processNode true (updateRegexes dogInsensWordMap) noClock (plainNode "dog ran")).node.value
        = "Cat ran".data := by
  exact ⟨by decide, by decide, by decide, by decide⟩

/-- C2 counterexample: a rule set containing both the "super" → "X" and the
"superman" → "Y" rules (plus a third enabled rule "flies" → "Z") processes
"superman flies" to "Y Z", not to "Y flies" — the claim's universal
quantification over every rule set containing the two rules fails. -/
theorem C2_counterexample :
    ("super", ruleMk "X" false) ∈ superWordMapPlus ∧
    ("superman", ruleMk "Y" false) ∈ superWordMapPlus ∧
    (processNode true (updateRegexes superWordMapPlus) noClock
        (plainNode "superman flies")).node.value ≠ "Y flies".data := by
  exact ⟨by decide, by decide, by decide⟩

/-- C2 (amended): for the rule sets consisting of exactly the two enabled
case-insensitive rules "super" → "X" and "superman" → "Y" — in either
insertion order — processing "superman flies" yields "Y flies" and not
"Xman flies"; every compiled alternation lists its fragments in
non-increasing length of the compiled pattern source (boundary markers
included), which here places "superman" first.  The sort key is the pattern
length, not the key length, so this does not extend to "a prefix key never
shadows a longer key": the keys "cat" and "cat-" compile to patterns of
length 7 and 6 respectively, the shorter key's fragment is tried first, and
"cat-" is processed to "X-", not "Y". -/
theorem C2_longest_match_priority :
    (∀ (ws : List String) (cs : Bool),
      (fragsOf (buildRegex ws cs)).Pairwise (fun a b => patternLen b ≤ patternLen a)) ∧
    (processNode true (updateRegexes superWordMap) noClock
        (plainNode "superman flies")).node.value = "Y flies".data ∧
    (processNode true (updateRegexes superWordMapRev) noClock
        (plainNode "superman flies")).node.value = "Y flies".data ∧
    (patternLen (mkFrag "cat") = 7 ∧ patternLen (mkFrag "cat-") = 6 ∧
      (processNode true (updateRegexes catDashWordMap) noClock
          (plainNode "cat-")).node.value = "X-".data ∧
      "X-".data ≠ "Y".data) := by
  refine ⟨fun ws cs => ?_, by decide, by decide, by decide, by decide, by decide, by decide⟩
  by_cases h : ws = []
  · subst h
    show List.Pairwise _ ([] : List Frag)
    exact List.Pairwise.nil
  · rw [buildRegex, if_neg h]
    exact pairwise_sortFragsDesc _

/-- C4 counterexample: with the single enabled case-insensitive rule
"Constructor" → "wow", the matched substring "constructor" misses the exact
table as an own key but reaches `Object.prototype.constructor` through the
truthiness test `wordMapCache[match]`, so the code returns `undefined`
(written as "undefined") instead of consulting the lowercase table — where
the entry is present — or falling back to the match: a lookup miss does
alter the text. -/
theorem C4_counterexample :
    objGet (updateRegexes ctorWordMap).wordMapCache (String.mk "constructor".data) = none ∧
    objGet (updateRegexes ctorWordMap).wordMapCacheLower (String.mk "constructor".data)
        = some (ruleMk "wow" false) ∧
    replaceCallbackJS (updateRegexes ctorWordMap) "constructor".data = "undefined".data ∧
    (processNodeJS true (updateRegexes ctorWordMap) noClock
        (plainNode "a constructor!")).node.value = "a undefined!".data ∧
    "undefined".data ≠ "wow".data ∧ "undefined".data ≠ "constructor".data := by
  exact ⟨by decide, by decide, by decide, by decide, by decide, by decide⟩

/-- C4 (amended): the match resolver returns the exact-table replacement when
the matched substring is an own key of `wordMapCache`; otherwise, when the
substring names an `Object.prototype` member, the text "undefined" (the
inherited value is truthy and its `.replacement` is `undefined`); otherwise
the lowercase-table replacement under the lowercased substring when that is
an own key; otherwise, when the lowercased substring names a prototype
member, again "undefined"; and only otherwise the matched substring
unchanged.  The two tables are exactly the last-enabled-entry views of the
rule snapshot. -/
theorem C4_match_resolver (wm : WordMap) (m : List Char) :
    (∀ d, objGet (updateRegexes wm).wordMapCache (String.mk m) = some d →
        replaceCallbackJS (updateRegexes wm) m = d.replacement.data) ∧
    (objGet (updateRegexes wm).wordMapCache (String.mk m) = none →
      String.mk m ∈ protoNames →
        replaceCallbackJS (updateRegexes wm) m = "undefined".data) ∧
    (objGet (updateRegexes wm).wordMapCache (String.mk m) = none →
      String.mk m ∉ protoNames →
      ∀ d, objGet (updateRegexes wm).wordMapCacheLower (String.mk (m.map Char.toLower)) = some d →
        replaceCallbackJS (updateRegexes wm) m = d.replacement.data) ∧
    (objGet (updateRegexes wm).wordMapCache (String.mk m) = none →
      String.mk m ∉ protoNames →
      objGet (updateRegexes wm).wordMapCacheLower (String.mk (m.map Char.toLower)) = none →
      String.mk (m.map Char.toLower) ∈ protoNames →
        replaceCallbackJS (updateRegexes wm) m = "undefined".data) ∧
    (objGet (updateRegexes wm).wordMapCache (String.mk m) = none →
      String.mk m ∉ protoNames →
      objGet (updateRegexes wm).wordMapCacheLower (String.mk (m.map Char.toLower)) = none →
      String.mk (m.map Char.toLower) ∉ protoNames →
        replaceCallbackJS (updateRegexes wm) m = m) ∧
    (∀ k, objGet (updateRegexes wm).wordMapCache k = lastEnabledGet wm k) ∧
    (∀ l, objGet (updateRegexes wm).wordMapCacheLower l = lastEnabledLowerGet wm l) := by
  refine ⟨?_, ?_, ?_, ?_, ?_, wordMapCache_updateRegexes wm, wordMapCacheLower_updateRegexes wm⟩
  · intro d hd
    rw [replaceCallbackJS, jsGet, hd]
  · intro h0 hin
    rw [replaceCallbackJS, jsGet, h0, if_pos hin]
  · intro h0 hout d hd
    rw [replaceCallbackJS, jsGet, h0, if_neg hout, jsGet, hd]
  · intro h0 hout hl0 hin
    rw [replaceCallbackJS, jsGet, h0, if_neg hout, jsGet, hl0, if_pos hin]
  · intro h0 hout hl0 hlout
    rw [replaceCallbackJS, jsGet, h0, if_neg hout, jsGet, hl0, if_neg hlout]

/-- C4 witness: on the concrete case-sensitive rule set, resolving "Dog"
takes the exact own-key branch and returns "Cat". -/
theorem C4_match_resolver_witness :
    objGet (updateRegexes dogSensWordMap).wordMapCache (String.mk "Dog".data)
        = some (ruleMk "Cat" true) ∧
    replaceCallbackJS (updateRegexes dogSensWordMap) "Dog".data
        = (ruleMk "Cat" true).replacement.data :=
  ⟨by decide,
    (C4_match_resolver dogSensWordMap "Dog".data).1 (ruleMk "Cat" true) (by decide)⟩

/-- C5: every compiled fragment requires a leading word boundary exactly when
its key starts with a word character and a trailing one exactly when it ends
with one; concretely, the rule "cat" → "X" turns "catch the cat" into
"catch the X" (leaving "catch" alone), and the key "cat." gets only the
leading boundary, so "the cat.s cat" becomes "the Xs cat". -/
theorem C5_word_boundaries :
    (∀ (ws : List String) (cs : Bool), ∀ f ∈ fragsOf (buildRegex ws cs),
      f.bdL = isWordOpt f.word.data.head? ∧ f.bdR = isWordOpt f.word.data.getLast?) ∧
    (processNode true (updateRegexes catWordMap) noClock
        (plainNode "catch the cat")).node.value = "catch the X".data ∧
    ((mkFrag "cat.").bdL = true ∧ (mkFrag "cat.").bdR = false) ∧
    (processNode true (updateRegexes catDotWordMap) noClock
        (plainNode "the cat.s cat")).node.value = "the Xs cat".data := by
  refine ⟨?_, by decide, by decide, by decide⟩
  intro ws cs f hf
  rcases (mem_fragsOf_buildRegex ws cs f).mp hf with ⟨w, hw, rfl⟩
  exact ⟨mkFrag_bdL w, mkFrag_bdR w⟩

/-- C5 witness: the fragment of the key "cat." in its compiled alternation has
a leading boundary (the key starts with a word character) and no trailing one
(it ends with a period). -/
theorem C5_word_boundaries_witness :
    (mkFrag "cat.") ∈ fragsOf (buildRegex ["cat."] false) ∧
    ((mkFrag "cat.").bdL = isWordOpt (mkFrag "cat.").word.data.head? ∧
     (mkFrag "cat.").bdR = isWordOpt (mkFrag "cat.").word.data.getLast?) :=
  ⟨by decide, C5_word_boundaries.1 ["cat."] false (mkFrag "cat.") (by decide)⟩

/-- C8: a text node whose parent is one of the excluded containers (script,
style, no-render fallback, textarea, single-line input) or which sits in a
user-editable region is never touched: `processNode` returns it unchanged with
no write and no warning, the shared tree-walker body leaves it in place at its
position, and `processElement` on such a text node is the identity. -/
theorem C8_exclusion_zone_invariance (en : Bool) (st : CompiledState) (clock : Nat → Bool)
    (clocks : Nat → Nat → Bool) (n : TextNode)
    (h : n.parentTag ∈ ignoredTags ∨ isEditable n = true) :
    processNode en st clock n = ⟨n, false, false⟩ ∧
    (∀ (i : Nat) (nodes : List TextNode) (j : Nat),
      nodes.get? j = some n → (walkNodes en st clocks i nodes).get? j = some n) ∧
    processElement en st clocks (Sum.inl n) = Sum.inl n := by
  have hx : nodeExcluded n = true := by
    rcases h with h | h
    · rw [nodeExcluded]
      have : ignoredTags.contains n.parentTag = true := by
        rcases List.mem_iff_get.mp h with ⟨i, hi⟩
        exact List.contains_iff_exists_mem_beq .. |>.mpr ⟨n.parentTag, h, beq_iff_eq.mpr rfl⟩
      rw [this, Bool.true_or]
    · rw [nodeExcluded, h, Bool.or_true]
  have hpn : processNode en st clock n = ⟨n, false, false⟩ := by
    rw [processNode]
    cases en
    · rfl
    · simp [hx]
  refine ⟨hpn, ?_, ?_⟩
  · intro i nodes j hj
    rw [walkNodes_get? en st clocks nodes i j, hj]
    simp [hx]
  · rw [processElement]
    cases en
    · rfl
    · by_cases hr : (st.sensitiveRegex.isNone && st.insensitiveRegex.isNone) = true
      · simp [hr]
      · have hpn' : processNode true st (clocks 0) n = ⟨n, false, false⟩ := by
          rw [processNode]
          simp [hx]
        simp [hr, hpn']

/-- C8 witness: a "cat" text node inside a script element is left alone by the
processor, the walker and the subtree entry point, although its text matches
the enabled rule "cat". -/
theorem C8_exclusion_zone_invariance_witness :
    scriptNode.parentTag ∈ ignoredTags ∧
    processNode true (updateRegexes catWordMap) noClock scriptNode
      = ⟨scriptNode, false, false⟩ ∧
    (walkNodes true (updateRegexes catWordMap) (fun _ => noClock) 0 [scriptNode]).get? 0
      = some scriptNode ∧
    processElement true (updateRegexes catWordMap) (fun _ => noClock) (Sum.inl scriptNode)
      = Sum.inl scriptNode := by
  have h := C8_exclusion_zone_invariance true (updateRegexes catWordMap) noClock
    (fun _ => noClock) scriptNode (Or.inl (by decide))
  exact ⟨by decide, h.1, h.2.1 0 [scriptNode] 0 rfl, h.2.2⟩

/-- C9: under unique keys, compilation includes a rule exactly when its
`enabled` field is not `false`: the key of rule `(k, d)` appears in the
case-appropriate alternation and the exact-lookup table holds `d` under `k`
precisely when the rule is enabled; a rule whose `enabled` field is absent
counts as enabled; and every entry of either lookup table stems from an
enabled rule. -/
theorem C9_disabled_rule_exclusion (wm : WordMap) (k : String) (d : RuleData)
    (hnd : (wm.map Prod.fst).Nodup) (hmem : (k, d) ∈ wm) :
    (k ∈ fragWords (updateRegexes wm).sensitiveRegex ↔
        ruleEnabled d = true ∧ d.caseSensitive = true) ∧
    (k ∈ fragWords (updateRegexes wm).insensitiveRegex ↔
        ruleEnabled d = true ∧ d.caseSensitive = false) ∧
    (objGet (updateRegexes wm).wordMapCache k = if ruleEnabled d then some d else none) ∧
    (∀ (repl : String) (cs : Bool), ruleEnabled ⟨repl, cs, none⟩ = true) ∧
    (∀ k' d', objGet (updateRegexes wm).wordMapCache k' = some d' →
        (k', d') ∈ wm ∧ ruleEnabled d' = true) ∧
    (∀ l d', objGet (updateRegexes wm).wordMapCacheLower l = some d' →
        ∃ k'', (k'', d') ∈ wm ∧ ruleEnabled d' = true ∧ d'.caseSensitive = false ∧
          lowerStr k'' = l) := by
  refine ⟨?_, ?_, ?_, fun repl cs => rfl, ?_, ?_⟩
  · rw [mem_fragWords_sensitive]
    constructor
    · rintro ⟨d', hd', he, hcs⟩
      rw [wordMap_nodup_unique wm hnd k d d' hmem hd']
      exact ⟨he, hcs⟩
    · rintro ⟨he, hcs⟩
      exact ⟨d, hmem, he, hcs⟩
  · rw [mem_fragWords_insensitive]
    constructor
    · rintro ⟨d', hd', he, hcs⟩
      rw [wordMap_nodup_unique wm hnd k d d' hmem hd']
      exact ⟨he, hcs⟩
    · rintro ⟨he, hcs⟩
      exact ⟨d, hmem, he, hcs⟩
  · rw [wordMapCache_updateRegexes, lastEnabledGet_nodup wm k d hnd hmem]
  · intro k' d' h
    rw [wordMapCache_updateRegexes] at h
    exact lastEnabledGet_mem wm k' d' h
  · intro l d' h
    rw [wordMapCacheLower_updateRegexes] at h
    exact lastEnabledLowerGet_mem wm l d' h

/-- C9 witness: in a two-rule snapshot with the rule "off" disabled and the
rule "cat" lacking the `enabled` field, compilation keeps exactly the "cat"
rule. -/
theorem C9_disabled_rule_exclusion_witness :
    ((("off" : String) ∈
        fragWords (updateRegexes [("cat", ruleMk "X" false),
          ("off", ⟨"Y", false, some false⟩)]).insensitiveRegex) ↔
      ruleEnabled (⟨"Y", false, some false⟩ : RuleData) = true ∧
        (⟨"Y", false, some false⟩ : RuleData).caseSensitive = false) ∧
    objGet (updateRegexes [("cat", ruleMk "X" false),
        ("off", ⟨"Y", false, some false⟩)]).wordMapCache "off"
      = (if ruleEnabled (⟨"Y", false, some false⟩ : RuleData)
          then some ⟨"Y", false, some false⟩ else none) := by
  have h := C9_disabled_rule_exclusion
    [("cat", ruleMk "X" false), ("off", ⟨"Y", false, some false⟩)] "off"
    ⟨"Y", false, some false⟩ (by decide) (by decide)
  exact ⟨h.2.1, h.2.2.1⟩

/-- C10: processing touches nothing but the node's text value — parent tag and
editability facts are untouched; when no write is reported the node is
returned verbatim; and with the budget never exceeded on an eligible node, the
write happens exactly when one of the two passes changed the text, the final
value being the output of the two passes. -/
theorem C10_dom_write_discipline (en : Bool) (st : CompiledState) (clock : Nat → Bool)
    (n : TextNode) :
    ((processNode en st clock n).node.parentTag = n.parentTag ∧
     (processNode en st clock n).node.parentContentEditable = n.parentContentEditable ∧
     (processNode en st clock n).node.grandparentContentEditable
        = n.grandparentContentEditable) ∧
    ((processNode en st clock n).wrote = false → (processNode en st clock n).node = n) ∧
    (nodeExcluded n = false →
      ((processNode true st noClock n).wrote = true ↔
        ¬(runRegexP st.sensitiveRegex (replaceCallback st) n.value = n.value ∧
          bothPassesP st n.value
            = runRegexP st.sensitiveRegex (replaceCallback st) n.value)) ∧
      (processNode true st noClock n).node.value = bothPassesP st n.value) := by
  refine ⟨?_, ?_, ?_⟩
  · rcases processNode_cases en st clock n with h0 | h0 | ⟨t, h0⟩ <;>
      rw [h0] <;> exact ⟨rfl, rfl, rfl⟩
  · intro hw
    rcases processNode_cases en st clock n with h0 | h0 | ⟨t, h0⟩
    · rw [h0]
    · rw [h0]
    · rw [h0] at hw
      cases hw
  · intro hx
    rw [processNode_noClock st n hx]
    by_cases hch : runRegexP st.sensitiveRegex (replaceCallback st) n.value ≠ n.value ∨
        bothPassesP st n.value ≠ runRegexP st.sensitiveRegex (replaceCallback st) n.value
    · rw [if_pos hch]
      constructor
      · constructor
        · intro _
          tauto
        · intro _
          rfl
      · rfl
    · rw [if_neg hch]
      push_neg at hch
      constructor
      · constructor
        · intro hfalse
          cases hfalse
        · intro hcon
          exact absurd ⟨hch.1, hch.2⟩ hcon
      · rw [hch.2, hch.1]

/-- C10 witness: on the eligible node "Dog ran" with the case-sensitive rule
set, a write is reported exactly because the sensitive pass changed the text,
and the final value is the output of the two passes. -/
theorem C10_dom_write_discipline_witness :
    ((processNode true (updateRegexes dogSensWordMap) noClock (plainNode "Dog ran")).wrote
        = true ↔
      ¬(runRegexP (updateRegexes dogSensWordMap).sensitiveRegex
          (replaceCallback (updateRegexes dogSensWordMap)) (plainNode "Dog ran").value
            = (plainNode "Dog ran").value ∧
        bothPassesP (updateRegexes dogSensWordMap) (plainNode "Dog ran").value
          = runRegexP (updateRegexes dogSensWordMap).sensitiveRegex
              (replaceCallback (updateRegexes dogSensWordMap)) (plainNode "Dog ran").value)) ∧
    (processNode true (updateRegexes dogSensWordMap) noClock (plainNode "Dog ran")).node.value
      = bothPassesP (updateRegexes dogSensWordMap) (plainNode "Dog ran").value :=
  (C10_dom_write_discipline true (updateRegexes dogSensWordMap) noClock
    (plainNode "Dog ran")).2.2 (by decide)

/-- C1 counterexample: with the rule set of one case-sensitive rule
"Dog" → "Cat" and one case-insensitive rule "fox" → "hen", a clock that
exceeds the budget from the second match callback on aborts the node
"Dog fox" during the insensitive pass; the sensitive pass alone had already
produced "Cat fox", yet the node keeps its original text "Dog fox" — the
already-applied sensitive-pass replacement does *not* remain in the node's
text. -/
theorem C1_counterexample :
    runRegexP (updateRegexes timeoutWordMap).sensitiveRegex
        (replaceCallback (updateRegexes timeoutWordMap)) "Dog fox".data = "Cat fox".data ∧
    processNode true (updateRegexes timeoutWordMap) lateClock (plainNode "Dog fox")
      = ⟨plainNode "Dog fox", true, false⟩ ∧
    "Dog fox".data ≠ "Cat fox".data := by
  exact ⟨by decide, by decide, by decide⟩

/-- C1 (amended): when the time budget is exceeded (checked inside each match
callback), processing of the node is aborted with its text left entirely
unchanged — partially computed replacements, including completed
case-sensitive-pass ones, are discarded rather than written — a warning is
logged, and each remaining node of the walk is still processed independently
of the aborted one. -/
theorem C1_timeout_containment :
    (∀ (en : Bool) (st : CompiledState) (clock : Nat → Bool) (n : TextNode),
      (processNode en st clock n).warned = true →
        (processNode en st clock n).node = n ∧ (processNode en st clock n).wrote = false) ∧
    (∀ (en : Bool) (st : CompiledState) (clocks : Nat → Nat → Bool)
        (nodes : List TextNode) (j : Nat),
      en = true → (st.sensitiveRegex.isNone && st.insensitiveRegex.isNone) = false →
      (processDocument en st clocks nodes).get? j =
        (nodes.get? j).map
          (fun n => if nodeExcluded n then n else (processNode en st (clocks j) n).node)) := by
  constructor
  · exact processNode_warned
  · intro en st clocks nodes j hen hr
    subst hen
    rw [processDocument]
    simp only [Bool.not_true, Bool.false_eq_true, if_false, hr]
    rw [walkNodes_get? true st clocks nodes 0 j, Nat.zero_add]

/-- C1 witness: the timed-out "Dog fox" node is returned unchanged and
unwritten, and in a two-node document the second node's outcome is the
per-node result of its own processing. -/
theorem C1_timeout_containment_witness :
    ((processNode true (updateRegexes timeoutWordMap) lateClock (plainNode "Dog fox")).node
        = plainNode "Dog fox" ∧
     (processNode true (updateRegexes timeoutWordMap) lateClock (plainNode "Dog fox")).wrote
        = false) ∧
    (processDocument true (updateRegexes timeoutWordMap) (fun _ => lateClock)
        [plainNode "Dog fox", plainNode "a fox"]).get? 1 =
      ([plainNode "Dog fox", plainNode "a fox"].get? 1).map
        (fun n => if nodeExcluded n then n
          else (processNode true (updateRegexes timeoutWordMap)
            ((fun _ => lateClock) 1) n).node) :=
  ⟨C1_timeout_containment.1 true (updateRegexes timeoutWordMap) lateClock
      (plainNode "Dog fox") (by decide),
    C1_timeout_containment.2 true (updateRegexes timeoutWordMap) (fun _ => lateClock)
      [plainNode "Dog fox", plainNode "a fox"] 1 rfl (by decide)⟩

/-- C6 counterexample: on the rule set with the case-sensitive rule
"Dog" → "A" and the case-insensitive rule "dog" → "B", the original
linear-scan resolver maps the matched substring "DOG" to "A" (the first
active key whose lowercase form matches, a case-sensitive one), while the
optimized resolver maps it to "B" (the lowercase table only holds
case-insensitive rules) — the two resolvers are not equivalent. -/
theorem C6_counterexample :
    replaceCallbackOld (updateRegexesOld twinKeyWordMap).wordMapCache "DOG".data = "A".data ∧
    replaceCallback (updateRegexes twinKeyWordMap) "DOG".data = "B".data ∧
    "A".data ≠ "B".data := by
  exact ⟨by decide, by decide, by decide⟩

/-- C3 counterexample: the two-rule set "x-" → "-" and "-y" → "z" satisfies
the claim's side condition (no rule's replacement equals or contains another
rule's key at all), yet processing "x-y" once gives "-y" and processing that
output again gives "z": the first replacement created a new match at its seam
with the remaining text, so a second full scan is not a no-op. -/
theorem C3_counterexample :
    noForeignKeyInReplacement seamWordMap = true ∧
    (processNodeJS true (updateRegexes seamWordMap) noClock (plainNode "x-y")).node.value
      = "-y".data ∧
    (processNodeJS true (updateRegexes seamWordMap) noClock
        (processNodeJS true (updateRegexes seamWordMap) noClock
          (plainNode "x-y")).node).node.value
      = "z".data ∧
    "z".data ≠ "-y".data := by
  exact ⟨by decide, by decide, by decide, by decide⟩

theorem objSet_fresh (m : WordMap) (k : String) (v : RuleData)
    (h : ∀ p ∈ m, p.1 ≠ k) : objSet m k v = m ++ [(k, v)] := by
  rw [objSet, if_neg]
  intro hany
  rcases List.any_eq_true.mp hany with ⟨p, hp, hpk⟩
  exact h p hp (beq_iff_eq.mp hpk)

theorem foldl_updateStep_activeMap_filter (wm : WordMap) :
    ∀ (acc : UpdateAcc),
      (∀ p ∈ acc.activeMap, ∀ q ∈ wm, p.1 ≠ q.1) → (wm.map Prod.fst).Nodup →
      (wm.foldl updateStep acc).activeMap =
        acc.activeMap ++ wm.filter (fun p => ruleEnabled p.2) := by
  induction wm with
  | nil => intro acc _ _; simp
  | cons p rest ih =>
    intro acc hdisj hnd
    rcases List.nodup_cons.mp hnd with ⟨hp, hrest⟩
    rw [List.foldl_cons]
    cases he : ruleEnabled p.2 with
    | false =>
      rw [updateStep, if_neg (by simp [he])]
      rw [ih acc (fun q hq r hr => hdisj q hq r (List.mem_cons_of_mem p hr)) hrest]
      rw [List.filter_cons, he]
      rfl
    | true =>
      rw [updateStep, if_pos he]
      have hfresh : ∀ q ∈ acc.activeMap, q.1 ≠ p.1 :=
        fun q hq => hdisj q hq p (List.mem_cons_self p rest)
      set acc' : UpdateAcc :=
        { sensitiveWords :=
            if p.2.caseSensitive then acc.sensitiveWords ++ [p.1] else acc.sensitiveWords
          insensitiveWords :=
            if p.2.caseSensitive then acc.insensitiveWords else acc.insensitiveWords ++ [p.1]
          activeMap := objSet acc.activeMap p.1 p.2
          activeLowerMap :=
            if p.2.caseSensitive then acc.activeLowerMap
            else objSet acc.activeLowerMap (lowerStr p.1) p.2 } with hacc'
      have hmap' : acc'.activeMap = acc.activeMap ++ [p] := by
        rw [hacc']
        show objSet acc.activeMap p.1 p.2 = _
        rw [objSet_fresh acc.activeMap p.1 p.2 hfresh]
      have hdisj' : ∀ q ∈ acc'.activeMap, ∀ r ∈ rest, q.1 ≠ r.1 := by
        intro q hq r hr
        rw [hmap'] at hq
        rcases List.mem_append.mp hq with hq | hq
        · exact hdisj q hq r (List.mem_cons_of_mem p hr)
        · rcases List.mem_singleton.mp hq with rfl
          intro hqr
          exact hp (List.mem_map.mpr ⟨r, hr, hqr.symm⟩)
      rw [ih acc' hdisj' hrest, hmap', List.filter_cons, he]
      simp

/-- Under unique keys, the exact-lookup map is the enabled sub-list of the
snapshot, in order. -/
theorem wordMapCache_eq_filter (wm : WordMap) (hnd : (wm.map Prod.fst).Nodup) :
    (updateRegexes wm).wordMapCache = wm.filter (fun p => ruleEnabled p.2) := by
  show (wm.foldl updateStep ⟨[], [], [], []⟩).activeMap = _
  rw [foldl_updateStep_activeMap_filter wm ⟨[], [], [], []⟩ (by intro p hp; cases hp) hnd]
  rfl

theorem foldl_updateStepOld_activeMap (wm : WordMap) :
    ∀ (a : UpdateAccOld) (b : UpdateAcc), a.activeMap = b.activeMap →
      (wm.foldl updateStepOld a).activeMap = (wm.foldl updateStep b).activeMap := by
  induction wm with
  | nil => intro a b h; exact h
  | cons p rest ih =>
    intro a b h
    rw [List.foldl_cons, List.foldl_cons]
    apply ih
    cases he : ruleEnabled p.2 with
    | false =>
      rw [updateStepOld, updateStep, if_neg (by simp [he]), if_neg (by simp [he])]
      exact h
    | true =>
      rw [updateStepOld, updateStep, if_pos he, if_pos he]
      show objSet a.activeMap p.1 p.2 = objSet b.activeMap p.1 p.2
      rw [h]

/-- The earlier and the current `updateRegexes` build the same exact-lookup
map. -/
theorem wordMapCacheOld_eq (wm : WordMap) :
    (updateRegexesOld wm).wordMapCache = (updateRegexes wm).wordMapCache :=
  foldl_updateStepOld_activeMap wm ⟨[], [], []⟩ ⟨[], [], [], []⟩ rfl

theorem lastEnabledLowerGet_isSome_aux (l : String) :
    ∀ (wm : WordMap) (o : Option RuleData),
      ((∃ p ∈ wm, ruleEnabled p.2 = true ∧ p.2.caseSensitive = false ∧ lowerStr p.1 = l) ∨
        ∃ d0, o = some d0) →
      ∃ d'',
        wm.foldl
          (fun o p =>
            if ruleEnabled p.2 && !p.2.caseSensitive && (lowerStr p.1 == l) then some p.2 else o)
          o = some d'' := by
  intro wm
  induction wm with
  | nil =>
    intro o h
    rcases h with ⟨p, hp, _⟩ | ⟨d0, rfl⟩
    · cases hp
    · exact ⟨d0, rfl⟩
  | cons p rest ih =>
    intro o h
    rw [List.foldl_cons]
    rcases h with ⟨q, hq, hqe, hqcs, hql⟩ | ⟨d0, rfl⟩
    · rcases List.mem_cons.mp hq with rfl | hq'
      · have hcond : (ruleEnabled q.2 && !q.2.caseSensitive && (lowerStr q.1 == l)) = true := by
          rw [hqe, hqcs, beq_iff_eq.mpr hql]
          rfl
        rw [if_pos hcond]
        exact ih (some q.2) (Or.inr ⟨q.2, rfl⟩)
      · exact ih _ (Or.inl ⟨q, hq', hqe, hqcs, hql⟩)
    · by_cases hcond : (ruleEnabled p.2 && !p.2.caseSensitive && (lowerStr p.1 == l)) = true
      · rw [if_pos hcond]
        exact ih (some p.2) (Or.inr ⟨p.2, rfl⟩)
      · rw [if_neg hcond]
        exact ih (some d0) (Or.inr ⟨d0, rfl⟩)

/-- C6 (amended): the original linear-scan resolver and the optimized
table-based resolver agree on a matched substring whenever at most one active
rule key has the substring's lowercase form and any such rule is
case-insensitive.  (They can differ otherwise: the linear scan consults
case-sensitive keys and insertion order, the lowercase table only
case-insensitive rules with last-write-wins, see the counterexample.) -/
theorem C6_resolver_equivalence (wm : WordMap) (m : List Char)
    (hnd : (wm.map Prod.fst).Nodup)
    (huniq : ∀ p ∈ wm, ∀ q ∈ wm, ruleEnabled p.2 = true → ruleEnabled q.2 = true →
      lowerStr p.1 = String.mk (m.map Char.toLower) →
      lowerStr q.1 = String.mk (m.map Char.toLower) → p = q)
    (hcs : ∀ p ∈ wm, ruleEnabled p.2 = true →
      lowerStr p.1 = String.mk (m.map Char.toLower) → p.2.caseSensitive = false) :
    replaceCallbackOld (updateRegexesOld wm).wordMapCache m
      = replaceCallback (updateRegexes wm) m := by
  rw [replaceCallbackOld, replaceCallback, wordMapCacheOld_eq wm]
  cases hex : objGet (updateRegexes wm).wordMapCache (String.mk m) with
  | some d => rfl
  | none =>
    cases hfind : (updateRegexes wm).wordMapCache.find?
        (fun p => lowerStr p.1 == String.mk (m.map Char.toLower)) with
    | some p0 =>
      have hp0mem : p0 ∈ (updateRegexes wm).wordMapCache := List.mem_of_find?_eq_some hfind
      have hp0pred : (lowerStr p0.1 == String.mk (m.map Char.toLower)) = true :=
        @List.find?_some _ (fun p => lowerStr p.1 == String.mk (m.map Char.toLower)) p0
          (updateRegexes wm).wordMapCache hfind
      rw [wordMapCache_eq_filter wm hnd] at hp0mem
      rcases List.mem_filter.mp hp0mem with ⟨hp0wm, hp0en⟩
      have hp0l : lowerStr p0.1 = String.mk (m.map Char.toLower) := beq_iff_eq.mp hp0pred
      have hp0cs : p0.2.caseSensitive = false := hcs p0 hp0wm hp0en hp0l
      obtain ⟨d'', hd''⟩ := lastEnabledLowerGet_isSome_aux (String.mk (m.map Char.toLower)) wm
        none (Or.inl ⟨p0, hp0wm, hp0en, hp0cs, hp0l⟩)
      have hnew : objGet (updateRegexes wm).wordMapCacheLower (String.mk (m.map Char.toLower))
          = some d'' := by
        rw [wordMapCacheLower_updateRegexes]
        exact hd''
      rw [hnew]
      obtain ⟨k'', hk''mem, hk''en, hk''cs, hk''l⟩ :=
        lastEnabledLowerGet_mem wm (String.mk (m.map Char.toLower)) d'' hd''
      have heq : p0 = (k'', d'') := huniq p0 hp0wm (k'', d'') hk''mem hp0en hk''en hp0l hk''l
      show p0.2.replacement.data = d''.replacement.data
      rw [show p0.2 = d'' from congrArg Prod.snd heq]
    | none =>
      have hnone : objGet (updateRegexes wm).wordMapCacheLower
          (String.mk (m.map Char.toLower)) = none := by
        rw [wordMapCacheLower_updateRegexes]
        cases hsome : lastEnabledLowerGet wm (String.mk (m.map Char.toLower)) with
        | none => rfl
        | some d'' =>
          obtain ⟨k'', hk''mem, hk''en, hk''cs, hk''l⟩ :=
            lastEnabledLowerGet_mem wm (String.mk (m.map Char.toLower)) d'' hsome
          exfalso
          have hmemcache : (k'', d'') ∈ (updateRegexes wm).wordMapCache := by
            rw [wordMapCache_eq_filter wm hnd]
            exact List.mem_filter.mpr ⟨hk''mem, hk''en⟩
          have hnp := List.find?_eq_none.mp hfind (k'', d'') hmemcache
          exact hnp (beq_iff_eq.mpr hk''l)
      rw [hnone]

/-- C6 witness: on the single enabled case-insensitive rule "Dog" → "Cat"
(whose key is the only one lowercasing to "dog") the two resolvers agree on
the matched substring "DOG". -/
theorem C6_resolver_equivalence_witness :
    replaceCallbackOld (updateRegexesOld dogInsensWordMap).wordMapCache "DOG".data
      = replaceCallback (updateRegexes dogInsensWordMap) "DOG".data :=
  C6_resolver_equivalence dogInsensWordMap "DOG".data (by decide) (by decide) (by decide)

/-! Characterization of a replace pass when every key is a non-empty word. -/

theorem charFold_false (c : Char) : charFold false c = c := rfl

theorem map_charFold_false (l : List Char) : l.map (charFold false) = l := by
  induction l with
  | nil => rfl
  | cons c s ih => simp [charFold_false, ih]

theorem charFold_beq_false_of_word_ne (ic : Bool) (a b : Char)
    (h : isWordChar a ≠ isWordChar b) : (charFold ic a == charFold ic b) = false := by
  rw [beq_eq_false_iff_ne]
  intro he
  apply h
  rw [← isWordChar_charFold ic a, ← isWordChar_charFold ic b, he]

theorem litMatches_iff (ic : Bool) : ∀ (w s : List Char),
    litMatches ic w s = true ↔
      w.length ≤ s.length ∧ (s.take w.length).map (charFold ic) = w.map (charFold ic) := by
  intro w
  induction w with
  | nil =>
    intro s
    simp [litMatches]
  | cons c w ih =>
    intro s
    cases s with
    | nil => simp [litMatches]
    | cons d s' =>
      rw [litMatches]
      simp only [Bool.and_eq_true, beq_iff_eq, ih s', List.length_cons, List.take_succ_cons,
        List.map_cons, List.cons.injEq, Nat.add_le_add_iff_right]
      constructor
      · rintro ⟨h1, h2, h3⟩
        exact ⟨h2, h1.symm, h3⟩
      · rintro ⟨h1, h2, h3⟩
        exact ⟨h2.symm, h1, h3⟩

theorem tryFrag_nil_none (ic : Bool) (f : Frag) (prev : Option Char)
    (hne : f.word.data ≠ []) : tryFrag ic f prev [] = none := by
  have hlit : litMatches ic f.word.data [] = false := by
    cases hw : f.word.data with
    | nil => exact absurd hw hne
    | cons c w' => rfl
  simp only [tryFrag]
  by_cases hb : (f.bdL && !boundaryAt prev (([] : List Char).head?)) = true
  · rw [if_pos hb]
  · rw [if_neg hb, if_neg]
    rw [hlit]
    exact Bool.false_ne_true

theorem tryFrag_nonword_head (ic : Bool) (f : Frag) (prev : Option Char) (c : Char)
    (s : List Char) (hne : f.word.data ≠ [])
    (hw : ∀ x ∈ f.word.data, isWordChar x = true) (hc : isWordChar c = false) :
    tryFrag ic f prev (c :: s) = none := by
  have hlit : litMatches ic f.word.data (c :: s) = false := by
    cases hwd : f.word.data with
    | nil => exact absurd hwd hne
    | cons a w' =>
      have ha : isWordChar a = true := hw a (hwd ▸ List.mem_cons_self a w')
      rw [litMatches]
      rw [charFold_beq_false_of_word_ne ic a c (by rw [ha, hc]; exact fun h => Bool.noConfusion h)]
      rfl
  simp only [tryFrag]
  by_cases hb : (f.bdL && !boundaryAt prev ((c :: s).head?)) = true
  · rw [if_pos hb]
  · rw [if_neg hb, if_neg]
    rw [hlit]
    exact Bool.false_ne_true

theorem tryFrag_midword (ic : Bool) (f : Frag) (p : Char) (c : Char) (s : List Char)
    (hbdL : f.bdL = true) (hp : isWordChar p = true) (hc : isWordChar c = true) :
    tryFrag ic f (some p) (c :: s) = none := by
  simp only [tryFrag]
  rw [if_pos]
  rw [hbdL, Bool.true_and, Bool.not_eq_true']
  show boundaryAt (some p) (some c) = false
  rw [boundaryAt]
  show (isWordChar p != isWordChar c) = false
  rw [hp, hc]
  rfl

theorem tryFrags_nil_none (ic : Bool) (fs : List Frag) (prev : Option Char)
    (hg : goodFrags fs) : tryFrags ic fs prev [] = none := by
  induction fs with
  | nil => rfl
  | cons f fs ih =>
    rw [tryFrags, tryFrag_nil_none ic f prev (hg f (List.mem_cons_self f fs)).1]
    exact ih (fun f' hf' => hg f' (List.mem_cons_of_mem f hf'))

theorem tryFrags_nonword_head (ic : Bool) (fs : List Frag) (prev : Option Char) (c : Char)
    (s : List Char) (hg : goodFrags fs) (hc : isWordChar c = false) :
    tryFrags ic fs prev (c :: s) = none := by
  induction fs with
  | nil => rfl
  | cons f fs ih =>
    obtain ⟨hne, hw, _, _⟩ := hg f (List.mem_cons_self f fs)
    rw [tryFrags, tryFrag_nonword_head ic f prev c s hne hw hc]
    exact ih (fun f' hf' => hg f' (List.mem_cons_of_mem f hf'))

theorem tryFrags_midword (ic : Bool) (fs : List Frag) (p : Char) (c : Char) (s : List Char)
    (hg : goodFrags fs) (hp : isWordChar p = true) (hc : isWordChar c = true) :
    tryFrags ic fs (some p) (c :: s) = none := by
  induction fs with
  | nil => rfl
  | cons f fs ih =>
    obtain ⟨_, _, hbdL, _⟩ := hg f (List.mem_cons_self f fs)
    rw [tryFrags, tryFrag_midword ic f p c s hbdL hp hc]
    exact ih (fun f' hf' => hg f' (List.mem_cons_of_mem f hf'))

theorem tryFrag_run (ic : Bool) (f : Frag) (prev : Option Char) (run rest : List Char)
    (hne : f.word.data ≠ []) (hw : ∀ x ∈ f.word.data, isWordChar x = true)
    (hbdL : f.bdL = true) (hbdR : f.bdR = true)
    (hrne : run ≠ []) (hrw : ∀ x ∈ run, isWordChar x = true)
    (hrest : ∀ d, rest.head? = some d → isWordChar d = false)
    (hprev : isWordOpt prev = false) :
    tryFrag ic f prev (run ++ rest)
      = if fragMatchesRun ic f run then some run.length else none := by
  have hbd1 : (f.bdL && !boundaryAt prev ((run ++ rest).head?)) = false := by
    rw [List.head?_append_of_ne_nil run hrne]
    cases hr0 : run.head? with
    | none => exact absurd (List.head?_eq_none_iff.mp hr0) hrne
    | some r0 =>
      have hr0w : isWordChar r0 = true := hrw r0 (List.mem_of_mem_head? (by rw [hr0]; rfl))
      show (f.bdL && !(isWordOpt prev != isWordOpt (some r0))) = false
      rw [hprev]
      show (f.bdL && !(false != isWordChar r0)) = false
      rw [hr0w, hbdL]
      rfl
  simp only [tryFrag]
  rw [if_neg (by rw [hbd1]; exact Bool.false_ne_true)]
  by_cases hm : fragMatchesRun ic f run = true
  · have hmeq : f.word.data.map (charFold ic) = run.map (charFold ic) := beq_iff_eq.mp hm
    have hlen : f.word.data.length = run.length := by
      have := congrArg List.length hmeq
      simpa using this
    have hlit : litMatches ic f.word.data (run ++ rest) = true := by
      rw [litMatches_iff]
      refine ⟨by rw [hlen]; simp, ?_⟩
      rw [hlen, List.take_left]
      exact hmeq.symm
    rw [if_pos hlit, if_pos hm]
    have htake : (run ++ rest).take f.word.data.length = run := by
      rw [hlen]
      exact List.take_left ..
    have hdrop : (run ++ rest).drop f.word.data.length = rest := by
      rw [hlen]
      exact List.drop_left ..
    have hlast : isWordOpt (lastCharOr ((run ++ rest).take f.word.data.length) prev) = true := by
      rw [htake, lastCharOr]
      cases hgl : run.getLast? with
      | none => exact absurd (List.getLast?_eq_none_iff.mp hgl) hrne
      | some x =>
        show isWordChar x = true
        exact hrw x (List.mem_of_mem_getLast? (by rw [hgl]; rfl))
    have hnext : isWordOpt ((run ++ rest).drop f.word.data.length).head? = false := by
      rw [hdrop]
      cases hd : rest.head? with
      | none => rfl
      | some d =>
        show isWordChar d = false
        exact hrest d hd
    have hbb : boundaryAt (lastCharOr ((run ++ rest).take f.word.data.length) prev)
        (((run ++ rest).drop f.word.data.length).head?) = true := by
      show (isWordOpt (lastCharOr ((run ++ rest).take f.word.data.length) prev)
          != isWordOpt (((run ++ rest).drop f.word.data.length).head?)) = true
      rw [hlast, hnext]
      rfl
    have hcondf : (f.bdR && !boundaryAt (lastCharOr ((run ++ rest).take f.word.data.length) prev)
        (((run ++ rest).drop f.word.data.length).head?)) = false := by
      rw [hbdR, Bool.true_and, hbb]
      rfl
    rw [if_neg (by rw [hcondf]; exact Bool.false_ne_true), hlen]
  · by_cases hlit : litMatches ic f.word.data (run ++ rest) = true
    · obtain ⟨hle, hteq⟩ := (litMatches_iff ic _ _).mp hlit
      have hwlen : f.word.data.length ≤ run.length := by
        by_contra hgt
        push_neg at hgt
        cases hrest0 : rest with
        | nil =>
          rw [hrest0, List.append_nil] at hle
          omega
        | cons d rest' =>
          have hd : isWordChar d = false := hrest d (by rw [hrest0]; rfl)
          have h1 : ((run ++ rest).take f.word.data.length)[run.length]?
              = (run ++ rest)[run.length]? := by
            rw [List.getElem?_take, if_pos hgt]
          have h2 : (run ++ rest)[run.length]? = some d := by
            rw [List.getElem?_append_right (le_refl _), Nat.sub_self, hrest0]
            simp
          have h5 := congrArg (fun l => l[run.length]?) hteq
          simp only [List.getElem?_map] at h5
          rw [h1, h2] at h5
          cases h4 : f.word.data[run.length]? with
          | none =>
            rw [h4] at h5
            simp at h5
          | some wc =>
            rw [h4] at h5
            have hwc : isWordChar wc = true := hw wc (List.getElem?_mem h4)
            have h6 : charFold ic d = charFold ic wc := by
              simpa using h5
            have h7 := congrArg isWordChar h6
            rw [isWordChar_charFold, isWordChar_charFold, hd, hwc] at h7
            exact Bool.noConfusion h7
      rcases Nat.lt_or_ge f.word.data.length run.length with hlt | hge
      · rw [if_pos hlit, if_neg hm]
        have hw1 : f.word.data.length ≠ 0 := by
          intro h0
          exact hne (List.length_eq_zero.mp h0)
        have htake : (run ++ rest).take f.word.data.length = run.take f.word.data.length :=
          List.take_append_of_le_length hwlen
        have hlast : isWordOpt (lastCharOr ((run ++ rest).take f.word.data.length) prev)
            = true := by
          rw [htake, lastCharOr]
          cases hgl : (run.take f.word.data.length).getLast? with
          | none =>
            have hnn : run.take f.word.data.length ≠ [] := by
              intro h0
              rcases List.take_eq_nil_iff.mp h0 with h0 | h0
              · exact hw1 h0
              · exact hrne h0
            exact absurd (List.getLast?_eq_none_iff.mp hgl) hnn
          | some x =>
            show isWordChar x = true
            exact hrw x (List.take_subset _ _ (List.mem_of_mem_getLast? (by rw [hgl]; rfl)))
        have hnext : isWordOpt ((run ++ rest).drop f.word.data.length).head? = true := by
          rw [List.drop_append_of_le_length hwlen]
          have hdne : run.drop f.word.data.length ≠ [] := by
            intro h0
            have := List.drop_eq_nil_iff.mp h0
            omega
          rw [List.head?_append_of_ne_nil _ hdne]
          cases hd : (run.drop f.word.data.length).head? with
          | none => exact absurd (List.head?_eq_none_iff.mp hd) hdne
          | some x =>
            show isWordChar x = true
            exact hrw x (List.drop_subset _ _ (List.mem_of_mem_head? (by rw [hd]; rfl)))
        have hbb : boundaryAt (lastCharOr ((run ++ rest).take f.word.data.length) prev)
            (((run ++ rest).drop f.word.data.length).head?) = false := by
          show (isWordOpt (lastCharOr ((run ++ rest).take f.word.data.length) prev)
              != isWordOpt (((run ++ rest).drop f.word.data.length).head?)) = false
          rw [hlast, hnext]
          rfl
        rw [if_pos]
        rw [hbdR, Bool.true_and, hbb]
        rfl
      · exfalso
        apply hm
        have heq : f.word.data.length = run.length := le_antisymm hwlen hge
        rw [fragMatchesRun]
        apply beq_iff_eq.mpr
        rw [← hteq, heq, List.take_left]
    · rw [if_neg hlit, if_neg hm]

theorem tryFrags_run (ic : Bool) (fs : List Frag) (prev : Option Char) (run rest : List Char)
    (hg : goodFrags fs) (hrne : run ≠ []) (hrw : ∀ x ∈ run, isWordChar x = true)
    (hrest : ∀ d, rest.head? = some d → isWordChar d = false)
    (hprev : isWordOpt prev = false) :
    tryFrags ic fs prev (run ++ rest)
      = if anyFragRun ic fs run then some run.length else none := by
  induction fs with
  | nil => rfl
  | cons f fs ih =>
    obtain ⟨hne, hw, hbdL, hbdR⟩ := hg f (List.mem_cons_self f fs)
    rw [tryFrags, tryFrag_run ic f prev run rest hne hw hbdL hbdR hrne hrw hrest hprev]
    by_cases hf : fragMatchesRun ic f run = true
    · rw [if_pos hf]
      have : anyFragRun ic (f :: fs) run = true := by
        rw [anyFragRun, List.any_cons, hf]
        rfl
      rw [if_pos this]
    · rw [if_neg hf, ih (fun f' hf' => hg f' (List.mem_cons_of_mem f hf'))]
      have : anyFragRun ic (f :: fs) run = anyFragRun ic fs run := by
        rw [anyFragRun, List.any_cons]
        cases hff : fragMatchesRun ic f run with
        | true => exact absurd hff hf
        | false => rfl
      rw [this]

theorem mapRuns_nil (f : List Char → List Char) : mapRuns f [] = [] := by
  rw [mapRuns]

theorem mapRuns_nonword (f : List Char → List Char) (c : Char) (s : List Char)
    (hc : isWordChar c = false) : mapRuns f (c :: s) = c :: mapRuns f s := by
  rw [mapRuns]
  rw [if_neg (by rw [hc]; exact Bool.false_ne_true)]

theorem mapRuns_word (f : List Char → List Char) (c : Char) (s : List Char)
    (hc : isWordChar c = true) :
    mapRuns f (c :: s)
      = f (c :: s.takeWhile isWordChar) ++ mapRuns f (s.dropWhile isWordChar) := by
  rw [mapRuns]
  rw [if_pos hc]

theorem head?_dropWhile_not (p : Char → Bool) :
    ∀ (l : List Char) (d : Char), (l.dropWhile p).head? = some d → p d = false := by
  intro l
  induction l with
  | nil => intro d h; cases h
  | cons c s ih =>
    intro d h
    by_cases hc : p c = true
    · rw [List.dropWhile_cons_of_pos hc] at h
      exact ih d h
    · rw [List.dropWhile_cons_of_neg hc] at h
      cases h
      cases hpc : p c with
      | true => exact absurd hpc hc
      | false => rfl

theorem takeWhile_all (p : Char → Bool) :
    ∀ (l : List Char), ∀ x ∈ l.takeWhile p, p x = true := by
  intro l x hx
  exact List.mem_takeWhile_imp hx

/-- Passing through the tail of an unmatched word run: with the previous
character a word character, each word character is copied verbatim. -/
theorem scanP_word_chunk (ic : Bool) (fs : List Frag) (resolve : List Char → List Char)
    (hg : goodFrags fs) :
    ∀ (w : List Char), (∀ c ∈ w, isWordChar c = true) →
      ∀ (p : Char) (rest : List Char), isWordChar p = true →
        replaceScanP ic fs resolve (some p) (w ++ rest)
          = w ++ replaceScanP ic fs resolve (some (w.getLastD p)) rest := by
  intro w
  induction w with
  | nil =>
    intro _ p rest _
    rfl
  | cons a w' ih =>
    intro hw p rest hp
    have ha : isWordChar a = true := hw a (List.mem_cons_self a w')
    rw [List.cons_append, replaceScanP_cons,
      tryFrags_midword ic fs p a (w' ++ rest) hg hp ha]
    rw [ih (fun c hc => hw c (List.mem_cons_of_mem a hc)) a rest ha]
    rw [List.getLastD_cons]
    rfl

theorem scanP_eq_mapRuns_aux (ic : Bool) (fs : List Frag) (resolve : List Char → List Char)
    (hg : goodFrags fs) :
    ∀ (n : Nat) (s : List Char), s.length ≤ n → ∀ (prev : Option Char),
      (isWordOpt prev = false ∨ s = [] ∨ ∃ c cs, s = c :: cs ∧ isWordChar c = false) →
      replaceScanP ic fs resolve prev s
        = mapRuns (fun r => if anyFragRun ic fs r then resolve r else r) s := by
  intro n
  induction n with
  | zero =>
    intro s hs prev _
    have hsnil : s = [] := List.length_eq_zero.mp (Nat.le_zero.mp hs)
    subst hsnil
    rw [replaceScanP_nil, tryFrags_nil_none ic fs prev hg, mapRuns_nil]
  | succ n ih =>
    intro s hs prev hinv
    cases s with
    | nil => rw [replaceScanP_nil, tryFrags_nil_none ic fs prev hg, mapRuns_nil]
    | cons c s' =>
      by_cases hc : isWordChar c = true
      · have hprev : isWordOpt prev = false := by
          rcases hinv with h | h | ⟨c', cs', heq, hc'⟩
          · exact h
          · cases h
          · rw [List.cons.injEq] at heq
            rw [heq.1, hc'] at hc
            exact Bool.noConfusion hc
        have hsplit : c :: s' = (c :: s'.takeWhile isWordChar) ++ s'.dropWhile isWordChar := by
          rw [List.cons_append, List.takeWhile_append_dropWhile]
        have hrne : (c :: s'.takeWhile isWordChar) ≠ [] := by simp
        have hrw : ∀ x ∈ c :: s'.takeWhile isWordChar, isWordChar x = true := by
          intro x hx
          rcases List.mem_cons.mp hx with rfl | hx
          · exact hc
          · exact List.mem_takeWhile_imp hx
        have hrhd : ∀ d, (s'.dropWhile isWordChar).head? = some d → isWordChar d = false :=
          fun d hd => head?_dropWhile_not isWordChar s' d hd
        have hrlen : (s'.dropWhile isWordChar).length ≤ n := by
          have h1 : (s'.dropWhile isWordChar).length ≤ s'.length :=
            List.Sublist.length_le (List.dropWhile_sublist _)
          have h2 : s'.length ≤ n := by simpa using hs
          omega
        have hinv' : ∀ (pr : Option Char),
            isWordOpt pr = false ∨ s'.dropWhile isWordChar = [] ∨
              ∃ d ds, s'.dropWhile isWordChar = d :: ds ∧ isWordChar d = false := by
          intro pr
          cases hr : s'.dropWhile isWordChar with
          | nil => exact Or.inr (Or.inl rfl)
          | cons d ds =>
            refine Or.inr (Or.inr ⟨d, ds, rfl, ?_⟩)
            exact hrhd d (by rw [hr]; rfl)
        have htf : tryFrags ic fs prev (c :: s')
            = if anyFragRun ic fs (c :: s'.takeWhile isWordChar)
              then some (c :: s'.takeWhile isWordChar).length else none := by
          rw [hsplit]
          exact tryFrags_run ic fs prev (c :: s'.takeWhile isWordChar)
            (s'.dropWhile isWordChar) hg hrne hrw hrhd hprev
        rw [replaceScanP_cons, htf]
        by_cases hmatch : anyFragRun ic fs (c :: s'.takeWhile isWordChar) = true
        · rw [if_pos hmatch]
          have hrl : (c :: s'.takeWhile isWordChar).length ≠ 0 := by simp
          show (if (c :: s'.takeWhile isWordChar).length = 0
              then resolve [] ++ c :: replaceScanP ic fs resolve (some c) s'
              else resolve ((c :: s').take (c :: s'.takeWhile isWordChar).length) ++
                replaceScanP ic fs resolve
                  (lastCharOr ((c :: s').take (c :: s'.takeWhile isWordChar).length) prev)
                  ((c :: s').drop (c :: s'.takeWhile isWordChar).length)) = _
          rw [if_neg hrl]
          have htk : (c :: s').take (c :: s'.takeWhile isWordChar).length
              = c :: s'.takeWhile isWordChar := by
            conv_lhs => rw [hsplit]
            exact List.take_left ..
          have hdp : (c :: s').drop (c :: s'.takeWhile isWordChar).length
              = s'.dropWhile isWordChar := by
            conv_lhs => rw [hsplit]
            exact List.drop_left ..
          rw [htk, hdp]
          rw [ih (s'.dropWhile isWordChar) hrlen
            (lastCharOr (c :: s'.takeWhile isWordChar) prev) (hinv' _)]
          rw [mapRuns_word _ c s' hc]
          rw [if_pos hmatch]
        · rw [if_neg hmatch]
          show c :: replaceScanP ic fs resolve (some c) s' = _
          have hs'eq : s' = s'.takeWhile isWordChar ++ s'.dropWhile isWordChar :=
            (List.takeWhile_append_dropWhile ..).symm
          have hchunk : replaceScanP ic fs resolve (some c) s'
              = s'.takeWhile isWordChar ++ replaceScanP ic fs resolve
                  (some ((s'.takeWhile isWordChar).getLastD c)) (s'.dropWhile isWordChar) := by
            conv_lhs => rw [hs'eq]
            exact scanP_word_chunk ic fs resolve hg (s'.takeWhile isWordChar)
              (takeWhile_all isWordChar s') c (s'.dropWhile isWordChar) hc
          rw [hchunk]
          rw [ih (s'.dropWhile isWordChar) hrlen _ (hinv' _)]
          rw [mapRuns_word _ c s' hc, if_neg hmatch]
          rw [List.cons_append]
      · have hcf : isWordChar c = false := by
          cases hcc : isWordChar c with
          | true => exact absurd hcc hc
          | false => rfl
        rw [replaceScanP_cons, tryFrags_nonword_head ic fs prev c s' hg hcf]
        show c :: replaceScanP ic fs resolve (some c) s' = _
        rw [mapRuns_nonword _ c s' hcf]
        rw [ih s' (by simpa using hs) (some c) (Or.inl (by show isWordChar c = false; exact hcf))]

/-- One replace pass over an all-word-key alternation acts independently on
each maximal word run of the text: a run matched by some fragment is replaced
by its resolution, everything else is copied. -/
theorem replaceScanP_eq_mapRuns (ic : Bool) (fs : List Frag)
    (resolve : List Char → List Char) (hg : goodFrags fs) (s : List Char) :
    replaceScanP ic fs resolve none s
      = mapRuns (fun r => if anyFragRun ic fs r then resolve r else r) s :=
  scanP_eq_mapRuns_aux ic fs resolve hg s.length s (le_refl _) none (Or.inl rfl)

theorem mapRuns_id_aux : ∀ (n : Nat) (s : List Char), s.length ≤ n →
    mapRuns (fun r => r) s = s := by
  intro n
  induction n with
  | zero =>
    intro s hs
    have hsnil : s = [] := List.length_eq_zero.mp (Nat.le_zero.mp hs)
    subst hsnil
    exact mapRuns_nil _
  | succ n ih =>
    intro s hs
    cases s with
    | nil => exact mapRuns_nil _
    | cons c s' =>
      by_cases hc : isWordChar c = true
      · rw [mapRuns_word _ c s' hc]
        rw [ih (s'.dropWhile isWordChar)
          (by
            have := List.Sublist.length_le (List.dropWhile_sublist (l := s') isWordChar)
            simp only [List.length_cons] at hs
            omega)]
        rw [List.cons_append, List.takeWhile_append_dropWhile]
      · have hcf : isWordChar c = false := by
          cases hcc : isWordChar c with
          | true => exact absurd hcc hc
          | false => rfl
        rw [mapRuns_nonword _ c s' hcf, ih s' (by simpa using hs)]

theorem mapRuns_id (s : List Char) : mapRuns (fun r => r) s = s :=
  mapRuns_id_aux s.length s (le_refl _)

theorem goodFrags_buildRegex (ws : List String) (cs : Bool)
    (h : ∀ w ∈ ws, w.data ≠ [] ∧ ∀ c ∈ w.data, isWordChar c = true) :
    goodFrags (fragsOf (buildRegex ws cs)) := by
  intro f hf
  rcases (mem_fragsOf_buildRegex ws cs f).mp hf with ⟨w, hw, rfl⟩
  obtain ⟨hne, hwc⟩ := h w hw
  refine ⟨hne, hwc, ?_, ?_⟩
  · rw [mkFrag_bdL]
    cases hh : w.data with
    | nil => exact absurd hh hne
    | cons a l =>
      show isWordChar a = true
      exact hwc a (hh ▸ List.mem_cons_self a l)
  · rw [mkFrag_bdR]
    cases hh : w.data.getLast? with
    | none => exact absurd (List.getLast?_eq_none_iff.mp hh) hne
    | some a =>
      show isWordChar a = true
      exact hwc a (List.mem_of_mem_getLast? (by rw [hh]; rfl))

theorem goodFrags_sensitive (wm : WordMap) (h1 : keysAllWord wm) :
    goodFrags (fragsOf (updateRegexes wm).sensitiveRegex) := by
  show goodFrags (fragsOf (buildRegex (wm.foldl updateStep ⟨[], [], [], []⟩).sensitiveWords true))
  apply goodFrags_buildRegex
  intro w hw
  rw [foldl_updateStep_sensitiveWords] at hw
  simp only [List.nil_append, List.mem_map, List.mem_filter, Bool.and_eq_true] at hw
  rcases hw with ⟨p, ⟨hpmem, hpe, _⟩, rfl⟩
  exact h1 p hpmem hpe

theorem goodFrags_insensitive (wm : WordMap) (h1 : keysAllWord wm) :
    goodFrags (fragsOf (updateRegexes wm).insensitiveRegex) := by
  show goodFrags (fragsOf (buildRegex (wm.foldl updateStep ⟨[], [], [], []⟩).insensitiveWords false))
  apply goodFrags_buildRegex
  intro w hw
  rw [foldl_updateStep_insensitiveWords] at hw
  simp only [List.nil_append, List.mem_map, List.mem_filter, Bool.and_eq_true] at hw
  rcases hw with ⟨p, ⟨hpmem, hpe, _⟩, rfl⟩
  exact h1 p hpmem hpe

theorem runRegexP_eq_mapRuns (orx : Option CompiledRegex) (resolve : List Char → List Char)
    (hg : goodFrags (fragsOf orx)) (t : List Char) :
    runRegexP orx resolve t = mapRuns (runEffect orx resolve) t := by
  cases orx with
  | none => exact (mapRuns_id t).symm
  | some rx =>
    show replaceScanP rx.ignoreCase rx.frags resolve none t = _
    rw [replaceScanP_eq_mapRuns rx.ignoreCase rx.frags resolve hg t]
    rfl

/-- With word-free replacements, the match resolver either keeps the text or
produces a word-free string. -/
theorem replaceCallback_cases (wm : WordMap) (h2 : replacementsNoWord wm) (r : List Char) :
    replaceCallback (updateRegexes wm) r = r ∨
      ∀ c ∈ replaceCallback (updateRegexes wm) r, isWordChar c = false := by
  cases hx : objGet (updateRegexes wm).wordMapCache (String.mk r) with
  | some d =>
    right
    have hval : replaceCallback (updateRegexes wm) r = d.replacement.data := by
      simp only [replaceCallback, hx]
    rw [hval]
    rw [wordMapCache_updateRegexes] at hx
    obtain ⟨hmem, hen⟩ := lastEnabledGet_mem wm _ d hx
    exact fun c hc => h2 (String.mk r, d) hmem hen c hc
  | none =>
    cases hy : objGet (updateRegexes wm).wordMapCacheLower
        (String.mk (r.map Char.toLower)) with
    | some d =>
      right
      have hval : replaceCallback (updateRegexes wm) r = d.replacement.data := by
        simp only [replaceCallback, hx, hy]
      rw [hval]
      rw [wordMapCacheLower_updateRegexes] at hy
      obtain ⟨k, hk, hen, _, _⟩ := lastEnabledLowerGet_mem wm _ d hy
      exact fun c hc => h2 (k, d) hk hen c hc
    | none =>
      left
      simp only [replaceCallback, hx, hy]

theorem mapRuns_append_noWord (f : List Char → List Char) :
    ∀ (a b : List Char), (∀ c ∈ a, isWordChar c = false) →
      mapRuns f (a ++ b) = a ++ mapRuns f b := by
  intro a
  induction a with
  | nil => intro b _; rfl
  | cons x a' ih =>
    intro b hx
    rw [List.cons_append, mapRuns_nonword f x (a' ++ b) (hx x (List.mem_cons_self x a')),
      ih b (fun c hc => hx c (List.mem_cons_of_mem x hc)), List.cons_append]

theorem takeWhile_append_of_all (p : Char → Bool) :
    ∀ (w b : List Char), (∀ c ∈ w, p c = true) →
      (b = [] ∨ ∃ d ds, b = d :: ds ∧ p d = false) →
      (w ++ b).takeWhile p = w ∧ (w ++ b).dropWhile p = b := by
  intro w
  induction w with
  | nil =>
    intro b _ hb
    rcases hb with rfl | ⟨d, ds, rfl, hd⟩
    · exact ⟨rfl, rfl⟩
    · constructor
      · show (d :: ds).takeWhile p = []
        rw [List.takeWhile_cons_of_neg (by rw [hd]; exact Bool.false_ne_true)]
      · show (d :: ds).dropWhile p = d :: ds
        rw [List.dropWhile_cons_of_neg (by rw [hd]; exact Bool.false_ne_true)]
  | cons a w' ih =>
    intro b hw hb
    have ha : p a = true := hw a (List.mem_cons_self a w')
    obtain ⟨h1, h2⟩ := ih b (fun c hc => hw c (List.mem_cons_of_mem a hc)) hb
    constructor
    · rw [List.cons_append, List.takeWhile_cons_of_pos ha, h1]
    · rw [List.cons_append, List.dropWhile_cons_of_pos ha, h2]

theorem mapRuns_append_run (f : List Char → List Char) (run b : List Char)
    (hrne : run ≠ []) (hrw : ∀ x ∈ run, isWordChar x = true)
    (hb : b = [] ∨ ∃ d ds, b = d :: ds ∧ isWordChar d = false) :
    mapRuns f (run ++ b) = f run ++ mapRuns f b := by
  cases run with
  | nil => exact absurd rfl hrne
  | cons c w =>
    have hc : isWordChar c = true := hrw c (List.mem_cons_self c w)
    obtain ⟨h1, h2⟩ := takeWhile_append_of_all isWordChar w b
      (fun x hx => hrw x (List.mem_cons_of_mem c hx)) hb
    rw [List.cons_append, mapRuns_word f c (w ++ b) hc, h1, h2]

theorem mapRuns_head_shape (f : List Char → List Char) (b : List Char)
    (hb : b = [] ∨ ∃ d ds, b = d :: ds ∧ isWordChar d = false) :
    mapRuns f b = [] ∨ ∃ d ds', mapRuns f b = d :: ds' ∧ isWordChar d = false := by
  rcases hb with rfl | ⟨d, ds, rfl, hd⟩
  · exact Or.inl (mapRuns_nil f)
  · exact Or.inr ⟨d, mapRuns f ds, mapRuns_nonword f d ds hd, hd⟩

theorem hasWord_false_iff (l : List Char) :
    hasWord l = false ↔ ∀ c ∈ l, isWordChar c = false := by
  rw [hasWord]
  constructor
  · intro h c hc
    cases hcc : isWordChar c with
    | true =>
      rw [List.any_eq_true.mpr ⟨c, hc, hcc⟩] at h
      exact Bool.noConfusion h
    | false => rfl
  · intro h
    cases ha : l.any isWordChar with
    | true =>
      rcases List.any_eq_true.mp ha with ⟨c, hc, hcc⟩
      rw [h c hc] at hcc
      exact Bool.noConfusion hcc
    | false => rfl

theorem hasWord_of_run (r : List Char) (hrne : r ≠ [])
    (hrw : ∀ x ∈ r, isWordChar x = true) : hasWord r = true := by
  cases r with
  | nil => exact absurd rfl hrne
  | cons c s =>
    rw [hasWord, List.any_cons, hrw c (List.mem_cons_self c s)]
    rfl

theorem mapRuns_comp (g1 g2 : List Char → List Char)
    (hP : ∀ r, r ≠ [] → (∀ x ∈ r, isWordChar x = true) →
      g1 r = r ∨ ∀ c ∈ g1 r, isWordChar c = false) :
    ∀ (n : Nat) (t : List Char), t.length ≤ n →
      mapRuns g2 (mapRuns g1 t)
        = mapRuns (fun r => if hasWord (g1 r) then g2 r else g1 r) t := by
  intro n
  induction n with
  | zero =>
    intro t ht
    have : t = [] := List.length_eq_zero.mp (Nat.le_zero.mp ht)
    subst this
    rw [mapRuns_nil, mapRuns_nil, mapRuns_nil]
  | succ n ih =>
    intro t ht
    cases t with
    | nil => rw [mapRuns_nil, mapRuns_nil, mapRuns_nil]
    | cons c s' =>
      by_cases hc : isWordChar c = true
      · have hrne : (c :: s'.takeWhile isWordChar) ≠ [] := by simp
        have hrw : ∀ x ∈ c :: s'.takeWhile isWordChar, isWordChar x = true := by
          intro x hx
          rcases List.mem_cons.mp hx with rfl | hx
          · exact hc
          · exact List.mem_takeWhile_imp hx
        have hrest : s'.dropWhile isWordChar = [] ∨
            ∃ d ds, s'.dropWhile isWordChar = d :: ds ∧ isWordChar d = false := by
          cases hr : s'.dropWhile isWordChar with
          | nil => exact Or.inl rfl
          | cons d ds =>
            exact Or.inr ⟨d, ds, rfl, head?_dropWhile_not isWordChar s' d (by rw [hr]; rfl)⟩
        have hlen : (s'.dropWhile isWordChar).length ≤ n := by
          have := List.Sublist.length_le (List.dropWhile_sublist (l := s') isWordChar)
          simp only [List.length_cons] at ht
          omega
        rw [mapRuns_word g1 c s' hc]
        rw [mapRuns_word _ c s' hc]
        rcases hP (c :: s'.takeWhile isWordChar) hrne hrw with hid | hnw
        · have hhw : hasWord (g1 (c :: s'.takeWhile isWordChar)) = true := by
            rw [hid]
            exact hasWord_of_run _ hrne hrw
          rw [hhw, if_pos rfl]
          rw [hid]
          rw [mapRuns_append_run g2 (c :: s'.takeWhile isWordChar)
            (mapRuns g1 (s'.dropWhile isWordChar)) hrne hrw
            (mapRuns_head_shape g1 _ hrest)]
          rw [ih (s'.dropWhile isWordChar) hlen]
        · have hhw : hasWord (g1 (c :: s'.takeWhile isWordChar)) = false :=
            (hasWord_false_iff _).mpr hnw
          rw [hhw]
          rw [mapRuns_append_noWord g2 (g1 (c :: s'.takeWhile isWordChar))
            (mapRuns g1 (s'.dropWhile isWordChar)) hnw]
          rw [ih (s'.dropWhile isWordChar) hlen]
          rw [if_neg (fun h => Bool.noConfusion h)]
      · have hcf : isWordChar c = false := by
          cases hcc : isWordChar c with
          | true => exact absurd hcc hc
          | false => rfl
        rw [mapRuns_nonword g1 c s' hcf, mapRuns_nonword g2 c (mapRuns g1 s') hcf,
          mapRuns_nonword _ c s' hcf, ih s' (by simpa using ht)]

theorem mapRuns_congr (f g : List Char → List Char)
    (h : ∀ r, r ≠ [] → (∀ x ∈ r, isWordChar x = true) → f r = g r) :
    ∀ (n : Nat) (t : List Char), t.length ≤ n → mapRuns f t = mapRuns g t := by
  intro n
  induction n with
  | zero =>
    intro t ht
    have : t = [] := List.length_eq_zero.mp (Nat.le_zero.mp ht)
    subst this
    rw [mapRuns_nil, mapRuns_nil]
  | succ n ih =>
    intro t ht
    cases t with
    | nil => rw [mapRuns_nil, mapRuns_nil]
    | cons c s' =>
      by_cases hc : isWordChar c = true
      · have hrw : ∀ x ∈ c :: s'.takeWhile isWordChar, isWordChar x = true := by
          intro x hx
          rcases List.mem_cons.mp hx with rfl | hx
          · exact hc
          · exact List.mem_takeWhile_imp hx
        have hlen : (s'.dropWhile isWordChar).length ≤ n := by
          have := List.Sublist.length_le (List.dropWhile_sublist (l := s') isWordChar)
          simp only [List.length_cons] at ht
          omega
        rw [mapRuns_word f c s' hc, mapRuns_word g c s' hc,
          h (c :: s'.takeWhile isWordChar) (by simp) hrw,
          ih (s'.dropWhile isWordChar) hlen]
      · have hcf : isWordChar c = false := by
          cases hcc : isWordChar c with
          | true => exact absurd hcc hc
          | false => rfl
        rw [mapRuns_nonword f c s' hcf, mapRuns_nonword g c s' hcf,
          ih s' (by simpa using ht)]


theorem runEffect_cases (wm : WordMap) (h2 : replacementsNoWord wm)
    (orx : Option CompiledRegex) (r : List Char) :
    runEffect orx (replaceCallback (updateRegexes wm)) r = r ∨
      ∀ c ∈ runEffect orx (replaceCallback (updateRegexes wm)) r, isWordChar c = false := by
  cases orx with
  | none => exact Or.inl rfl
  | some rx =>
    by_cases hm : anyFragRun rx.ignoreCase rx.frags r = true
    · rcases replaceCallback_cases wm h2 r with h | h
      · refine Or.inl ?_
        show (if anyFragRun rx.ignoreCase rx.frags r
            then replaceCallback (updateRegexes wm) r else r) = r
        rw [if_pos hm, h]
      · refine Or.inr ?_
        show ∀ c ∈ (if anyFragRun rx.ignoreCase rx.frags r
            then replaceCallback (updateRegexes wm) r else r), isWordChar c = false
        rw [if_pos hm]
        exact h
    · refine Or.inl ?_
      show (if anyFragRun rx.ignoreCase rx.frags r
          then replaceCallback (updateRegexes wm) r else r) = r
      rw [if_neg hm]

theorem sensEffect_cases (wm : WordMap) (h2 : replacementsNoWord wm) (r : List Char) :
    sensEffect wm r = r ∨ ∀ c ∈ sensEffect wm r, isWordChar c = false :=
  runEffect_cases wm h2 (updateRegexes wm).sensitiveRegex r

theorem insensEffect_cases (wm : WordMap) (h2 : replacementsNoWord wm) (r : List Char) :
    insensEffect wm r = r ∨ ∀ c ∈ insensEffect wm r, isWordChar c = false :=
  runEffect_cases wm h2 (updateRegexes wm).insensitiveRegex r

theorem bothEffect_cases (wm : WordMap) (h2 : replacementsNoWord wm) (r : List Char) :
    bothEffect wm r = r ∨ ∀ c ∈ bothEffect wm r, isWordChar c = false := by
  rw [bothEffect]
  by_cases hw1 : hasWord (sensEffect wm r) = true
  · rw [if_pos hw1]
    exact insensEffect_cases wm h2 r
  · rw [if_neg hw1]
    refine Or.inr ?_
    have : hasWord (sensEffect wm r) = false := by
      cases hww : hasWord (sensEffect wm r) with
      | true => exact absurd hww hw1
      | false => rfl
    exact (hasWord_false_iff _).mp this

theorem bothEffect_fixed_parts (wm : WordMap) (h2 : replacementsNoWord wm) (r : List Char)
    (hrne : r ≠ []) (hrw : ∀ x ∈ r, isWordChar x = true)
    (hwF : hasWord (bothEffect wm r) = true) :
    sensEffect wm r = r ∧ insensEffect wm r = r ∧ bothEffect wm r = r := by
  have hFr : bothEffect wm r = r := by
    rcases bothEffect_cases wm h2 r with h | h
    · exact h
    · rw [(hasWord_false_iff _).mpr h] at hwF
      exact Bool.noConfusion hwF
  by_cases hw1 : hasWord (sensEffect wm r) = true
  · have hG1r : sensEffect wm r = r := by
      rcases sensEffect_cases wm h2 r with h | h
      · exact h
      · rw [(hasWord_false_iff _).mpr h] at hw1
        exact Bool.noConfusion hw1
    have hG2r : insensEffect wm r = r := by
      have hFg2 : bothEffect wm r = insensEffect wm r := by
        rw [bothEffect, if_pos hw1]
      rw [← hFg2, hFr]
    exact ⟨hG1r, hG2r, hFr⟩
  · exfalso
    have hFG1 : bothEffect wm r = sensEffect wm r := by
      rw [bothEffect, if_neg hw1]
    rw [hFG1] at hFr
    rw [hFr] at hw1
    exact hw1 (hasWord_of_run r hrne hrw)

/-- The key stability fact behind idempotence: with all-word keys and
word-free replacements, the two-pass output is a fixed point of each
individual pass. -/
theorem bothPassesP_fixed (wm : WordMap) (h1 : keysAllWord wm)
    (h2 : replacementsNoWord wm) (t0 : List Char) :
    runRegexP (updateRegexes wm).sensitiveRegex (replaceCallback (updateRegexes wm))
        (bothPassesP (updateRegexes wm) t0) = bothPassesP (updateRegexes wm) t0 ∧
    runRegexP (updateRegexes wm).insensitiveRegex (replaceCallback (updateRegexes wm))
        (bothPassesP (updateRegexes wm) t0) = bothPassesP (updateRegexes wm) t0 := by
  have hgS := goodFrags_sensitive wm h1
  have hgI := goodFrags_insensitive wm h1
  have hsP : ∀ r, r ≠ [] → (∀ x ∈ r, isWordChar x = true) →
      sensEffect wm r = r ∨ ∀ c ∈ sensEffect wm r, isWordChar c = false :=
    fun r _ _ => sensEffect_cases wm h2 r
  have hFP : ∀ r, r ≠ [] → (∀ x ∈ r, isWordChar x = true) →
      bothEffect wm r = r ∨ ∀ c ∈ bothEffect wm r, isWordChar c = false :=
    fun r _ _ => bothEffect_cases wm h2 r
  have hu : bothPassesP (updateRegexes wm) t0 = mapRuns (bothEffect wm) t0 := by
    rw [bothPassesP, runRegexP_eq_mapRuns _ _ hgS t0, runRegexP_eq_mapRuns _ _ hgI _]
    have := mapRuns_comp (sensEffect wm) (insensEffect wm) hsP t0.length t0 (le_refl _)
    rw [show (fun r => if hasWord (sensEffect wm r) then insensEffect wm r else sensEffect wm r)
        = bothEffect wm from rfl] at this
    exact this
  constructor
  · rw [hu, runRegexP_eq_mapRuns _ _ hgS _]
    show mapRuns (sensEffect wm) (mapRuns (bothEffect wm) t0) = mapRuns (bothEffect wm) t0
    rw [mapRuns_comp (bothEffect wm) (sensEffect wm) hFP t0.length t0 (le_refl _)]
    apply mapRuns_congr
    intro r hrne hrw
    by_cases hwF : hasWord (bothEffect wm r) = true
    · rw [if_pos hwF]
      obtain ⟨hG1r, _, hFr⟩ := bothEffect_fixed_parts wm h2 r hrne hrw hwF
      rw [hG1r, hFr]
    · rw [if_neg hwF]
    · exact le_refl _
  · rw [hu, runRegexP_eq_mapRuns _ _ hgI _]
    show mapRuns (insensEffect wm) (mapRuns (bothEffect wm) t0) = mapRuns (bothEffect wm) t0
    rw [mapRuns_comp (bothEffect wm) (insensEffect wm) hFP t0.length t0 (le_refl _)]
    apply mapRuns_congr
    intro r hrne hrw
    by_cases hwF : hasWord (bothEffect wm r) = true
    · rw [if_pos hwF]
      obtain ⟨_, hG2r, hFr⟩ := bothEffect_fixed_parts wm h2 r hrne hrw hwF
      rw [hG2r, hFr]
    · rw [if_neg hwF]
    · exact le_refl _

/-- A fragment match determines the matched run up to ASCII case: the
lowercased run equals the lowercased fragment key. -/
theorem fragMatchesRun_lower (ic : Bool) (f : Frag) (r : List Char)
    (h : fragMatchesRun ic f r = true) :
    f.word.data.map Char.toLower = r.map Char.toLower := by
  have he : f.word.data.map (charFold ic) = r.map (charFold ic) := eq_of_beq h
  cases ic with
  | true =>
    have hfn : (charFold true) = Char.toLower := funext fun c => rfl
    rwa [hfn] at he
  | false =>
    have hid : f.word.data = r := by
      have hfn : (charFold false) = fun c => c := funext fun c => rfl
      rw [hfn] at he
      simpa using he
    rw [hid]

/-- When neither the matched substring nor its lowercase form names an
`Object.prototype` member, the JavaScript resolver coincides with the
idealized own-property resolver. -/
theorem replaceCallbackJS_eq_of_protoFree (st : CompiledState) (m : List Char)
    (h1 : String.mk m ∉ protoNames)
    (h2 : String.mk (m.map Char.toLower) ∉ protoNames) :
    replaceCallbackJS st m = replaceCallback st m := by
  rw [replaceCallbackJS, replaceCallback]
  cases hg : objGet st.wordMapCache (String.mk m) with
  | some d => rw [jsGet, hg]
  | none =>
    rw [jsGet, hg, if_neg h1]
    cases hg2 : objGet st.wordMapCacheLower (String.mk (m.map Char.toLower)) with
    | some d => rw [jsGet, hg2]
    | none => rw [jsGet, hg2, if_neg h2]

/-- Every key of the case-sensitive alternation is an enabled rule's key. -/
theorem fragWords_sens_enabled (wm : WordMap) :
    ∀ w ∈ fragWords (updateRegexes wm).sensitiveRegex,
      ∃ d, (w, d) ∈ wm ∧ ruleEnabled d = true := by
  intro w hw
  rcases (mem_fragWords_sensitive wm w).mp hw with ⟨d, hmem, hen, _⟩
  exact ⟨d, hmem, hen⟩

/-- Every key of the case-insensitive alternation is an enabled rule's key. -/
theorem fragWords_insens_enabled (wm : WordMap) :
    ∀ w ∈ fragWords (updateRegexes wm).insensitiveRegex,
      ∃ d, (w, d) ∈ wm ∧ ruleEnabled d = true := by
  intro w hw
  rcases (mem_fragWords_insensitive wm w).mp hw with ⟨d, hmem, hen, _⟩
  exact ⟨d, hmem, hen⟩

/-- On any word run, the per-run effect of a pass is the same under the
JavaScript and the idealized resolver, provided every fragment key is an
enabled key of a proto-safe rule set: a matched run lowercases to an enabled
key, which by `protoSafe` is not a prototype member name in either form. -/
theorem runEffect_JS_eq (wm : WordMap) (hp : protoSafe wm) (orx : Option CompiledRegex)
    (hw : ∀ w ∈ fragWords orx, ∃ d, (w, d) ∈ wm ∧ ruleEnabled d = true)
    (r : List Char) :
    runEffect orx (replaceCallbackJS (updateRegexes wm)) r
      = runEffect orx (replaceCallback (updateRegexes wm)) r := by
  cases orx with
  | none => rfl
  | some rx =>
    show (if anyFragRun rx.ignoreCase rx.frags r
        then replaceCallbackJS (updateRegexes wm) r else r)
      = (if anyFragRun rx.ignoreCase rx.frags r
        then replaceCallback (updateRegexes wm) r else r)
    by_cases hm : anyFragRun rx.ignoreCase rx.frags r = true
    · rw [if_pos hm, if_pos hm]
      rcases List.any_eq_true.mp hm with ⟨f, hf, hmf⟩
      rcases hw f.word (List.mem_map_of_mem Frag.word hf) with ⟨d, hmem, hen⟩
      have hlow : f.word.data.map Char.toLower = r.map Char.toLower :=
        fragMatchesRun_lower rx.ignoreCase f r hmf
      apply replaceCallbackJS_eq_of_protoFree
      · intro hin
        exact ((hp (f.word, d) hmem hen (String.mk r) hin).2)
          (congrArg String.mk hlow)
      · intro hin
        exact ((hp (f.word, d) hmem hen (String.mk (r.map Char.toLower)) hin).1)
          (congrArg String.mk hlow)
    · rw [if_neg hm, if_neg hm]

/-- A full pass agrees under the two resolvers on a proto-safe, all-word-key
rule set. -/
theorem runRegexP_JS_eq (wm : WordMap) (hp : protoSafe wm)
    (orx : Option CompiledRegex) (hg : goodFrags (fragsOf orx))
    (hw : ∀ w ∈ fragWords orx, ∃ d, (w, d) ∈ wm ∧ ruleEnabled d = true)
    (t : List Char) :
    runRegexP orx (replaceCallbackJS (updateRegexes wm)) t
      = runRegexP orx (replaceCallback (updateRegexes wm)) t := by
  rw [runRegexP_eq_mapRuns _ _ hg t, runRegexP_eq_mapRuns _ _ hg t]
  exact mapRuns_congr _ _ (fun r _ _ => runEffect_JS_eq wm hp orx hw r)
    t.length t (le_refl _)

/-- The two-pass output agrees under the two resolvers on a proto-safe,
all-word-key rule set. -/
theorem bothPassesPJS_eq (wm : WordMap) (h1 : keysAllWord wm) (hp : protoSafe wm)
    (t : List Char) :
    bothPassesPJS (updateRegexes wm) t = bothPassesP (updateRegexes wm) t := by
  rw [bothPassesPJS, bothPassesP]
  rw [runRegexP_JS_eq wm hp _ (goodFrags_sensitive wm h1) (fragWords_sens_enabled wm) t]
  rw [runRegexP_JS_eq wm hp _ (goodFrags_insensitive wm h1) (fragWords_insens_enabled wm) _]

/-- With the master switch on, an unexcluded node and a clock that never
fires, `processNodeJS` computes the two pure passes and writes back exactly
on a change. -/
theorem processNodeJS_noClock (st : CompiledState) (n : TextNode)
    (hx : nodeExcluded n = false) :
    processNodeJS true st noClock n =
      (if runRegexP st.sensitiveRegex (replaceCallbackJS st) n.value ≠ n.value ∨
          bothPassesPJS st n.value ≠
            runRegexP st.sensitiveRegex (replaceCallbackJS st) n.value then
        ⟨{ n with value := bothPassesPJS st n.value }, false, true⟩
      else ⟨n, false, false⟩) := by
  obtain ⟨k1, h1⟩ := runRegex_noClock st.sensitiveRegex (replaceCallbackJS st) n.value 0
  obtain ⟨k2, h2⟩ := runRegex_noClock st.insensitiveRegex (replaceCallbackJS st)
    (runRegexP st.sensitiveRegex (replaceCallbackJS st) n.value) k1
  simp only [processNodeJS, Bool.not_true, Bool.false_eq_true, if_false, hx, h1, h2,
    bothPassesPJS]

/-- C3: the claim's own side condition (no rule's replacement equals or
contains another rule's key with a different value) does not make a second
scan a no-op — see `C3_counterexample`, where the first pass creates a new
match across a replacement seam.  The amended property: for every rule set
whose enabled keys are non-empty strings of word characters, whose enabled
replacements contain no word characters, and none of whose enabled keys
lowercases to an `Object.prototype` member name (or the lowercase of one),
processing a text node a second time with the same compiled state leaves
the text produced by the first processing unchanged. -/
theorem C3_idempotence (en : Bool) (wm : WordMap) (n : TextNode)
    (h1 : keysAllWord wm) (h2 : replacementsNoWord wm) (hp : protoSafe wm) :
    (processNodeJS en (updateRegexes wm) noClock
        (processNodeJS en (updateRegexes wm) noClock n).node).node.value
      = (processNodeJS en (updateRegexes wm) noClock n).node.value := by
  have hE : ∀ t, bothPassesPJS (updateRegexes wm) t = bothPassesP (updateRegexes wm) t :=
    bothPassesPJS_eq wm h1 hp
  have hSens : ∀ t, runRegexP (updateRegexes wm).sensitiveRegex
      (replaceCallbackJS (updateRegexes wm)) t
      = runRegexP (updateRegexes wm).sensitiveRegex (replaceCallback (updateRegexes wm)) t :=
    runRegexP_JS_eq wm hp _ (goodFrags_sensitive wm h1) (fragWords_sens_enabled wm)
  cases en with
  | false => rfl
  | true =>
    by_cases hx : nodeExcluded n = true
    · have hfix : processNodeJS true (updateRegexes wm) noClock n = ⟨n, false, false⟩ := by
        rw [processNodeJS]
        simp only [Bool.not_true, Bool.false_eq_true, if_false, if_pos hx]
      rw [hfix]
      show (processNodeJS true (updateRegexes wm) noClock n).node.value = n.value
      rw [hfix]
    · have hx' : nodeExcluded n = false := by
        cases hv : nodeExcluded n with
        | true => exact absurd hv hx
        | false => rfl
      rw [processNodeJS_noClock (updateRegexes wm) n hx']
      obtain ⟨hs, hi⟩ := bothPassesP_fixed wm h1 h2 n.value
      have hs' : runRegexP (updateRegexes wm).sensitiveRegex
          (replaceCallbackJS (updateRegexes wm)) (bothPassesPJS (updateRegexes wm) n.value)
          = bothPassesPJS (updateRegexes wm) n.value := by
        rw [hE n.value, hSens]
        exact hs
      have hb2 : bothPassesPJS (updateRegexes wm) (bothPassesPJS (updateRegexes wm) n.value)
          = bothPassesPJS (updateRegexes wm) n.value := by
        rw [hE, hE]
        show runRegexP (updateRegexes wm).insensitiveRegex
            (replaceCallback (updateRegexes wm))
            (runRegexP (updateRegexes wm).sensitiveRegex
              (replaceCallback (updateRegexes wm))
              (bothPassesP (updateRegexes wm) n.value))
          = bothPassesP (updateRegexes wm) n.value
        rw [hs]
        exact hi
      by_cases hc : runRegexP (updateRegexes wm).sensitiveRegex
          (replaceCallbackJS (updateRegexes wm)) n.value ≠ n.value ∨
          bothPassesPJS (updateRegexes wm) n.value ≠
            runRegexP (updateRegexes wm).sensitiveRegex
              (replaceCallbackJS (updateRegexes wm)) n.value
      · rw [if_pos hc]
        have hx2 : nodeExcluded
            { n with value := bothPassesPJS (updateRegexes wm) n.value } = false := hx'
        rw [processNodeJS_noClock (updateRegexes wm) _ hx2]
        have hnc : ¬ (runRegexP (updateRegexes wm).sensitiveRegex
            (replaceCallbackJS (updateRegexes wm))
            ({ n with value := bothPassesPJS (updateRegexes wm) n.value } : TextNode).value
              ≠ ({ n with value := bothPassesPJS (updateRegexes wm) n.value } : TextNode).value ∨
            bothPassesPJS (updateRegexes wm)
              ({ n with value := bothPassesPJS (updateRegexes wm) n.value } : TextNode).value
              ≠ runRegexP (updateRegexes wm).sensitiveRegex
                (replaceCallbackJS (updateRegexes wm))
                ({ n with value := bothPassesPJS (updateRegexes wm) n.value } : TextNode).value) := by
          intro h
          rcases h with h | h
          · exact h hs'
          · exact h (hb2.trans hs'.symm)
        rw [if_neg hnc]
      · rw [if_neg hc]
        rw [processNodeJS_noClock (updateRegexes wm) n hx', if_neg hc]

/-- Concrete instance of the amended idempotence property: two enabled rules
with all-word, prototype-free keys and word-free replacements, applied twice
to the same node. -/
theorem C3_idempotence_witness :
    keysAllWord starWordMap ∧ replacementsNoWord starWordMap ∧ protoSafe starWordMap ∧
    (processNodeJS true (updateRegexes starWordMap) noClock
        (processNodeJS true (updateRegexes starWordMap) noClock
          (plainNode "Dog catches cat")).node).node.value
      = (processNodeJS true (updateRegexes starWordMap) noClock
          (plainNode "Dog catches cat")).node.value :=
  ⟨by unfold keysAllWord; decide, by unfold replacementsNoWord; decide,
    by unfold protoSafe; decide,
    C3_idempotence true starWordMap (plainNode "Dog catches cat")
      (by unfold keysAllWord; decide) (by unfold replacementsNoWord; decide)
      (by unfold protoSafe; decide)⟩
